import Mathlib

/-!
Verification of the PEAK-Rules core engine (`peak/rules/core.py`).

We shallowly embed the data model of the rule engine: signatures and other
values dispatched on by the generic function `implies` become the inductive
type `Val`; the action algebra (`Method`, `Around`, `Before`, `After`,
`NoApplicableMethods`, `AmbiguousMethods`) becomes the inductive type
`Action`.  Python exceptions become the `Except PyErr` monad.  Recursive
operations of the source are embedded as fuel-indexed structural recursions
(so that every definition computes by `rfl`/`decide`); each has a wrapper
supplying provably sufficient fuel, and fuel-irrelevance lemmas are proved.
-/

set_option maxHeartbeats 1000000

namespace PeakRules

/-- A small universe of Python classes, with `issubclass` encoded by
`subclass`.  `obj` is `object`, the root; `boolc` (Python `bool`) is a
subclass of `intc` (Python `int`); `strc`, `clsA`, `clsB` are further
unrelated direct subclasses of `object`. -/
inductive Cls where
  | obj | intc | boolc | strc | clsA | clsB
  deriving DecidableEq, Repr, Fintype

/-- Python `issubclass` on the finite class universe `Cls`. -/
def subclass (c1 c2 : Cls) : Bool :=
  c1 == c2 || c2 == .obj || (c1 == .boolc && c2 == .intc)

/-- Python exceptions raised by the core engine. -/
inductive PyErr where
  | typeError (msg : String)
  | keyError
  | noApplicableE
  | ambiguousE
  | attrError
  | noneCall
  | fuelOut
  deriving DecidableEq, Repr

/-- Decidable equality of embedded Python results, for concrete
evaluation of counterexamples. -/
instance {e a : Type} [DecidableEq e] [DecidableEq a] : DecidableEq (Except e a)
  | .ok x, .ok y =>
      if h : x = y then .isTrue (by rw [h]) else .isFalse (by simp [h])
  | .ok _, .error _ => .isFalse nofun
  | .error _, .ok _ => .isFalse nofun
  | .error x, .error y =>
      if h : x = y then .isTrue (by rw [h]) else .isFalse (by simp [h])

/-- Values handled by the generic function `implies` in `core.py` apart
from action instances: booleans, classes, and tuple signatures.  Action
instances are embedded separately as `Action` below (their `implies` rules
are `impliesA`); in the source a single generic `implies` dispatches over
both families by argument class, and the two families never compare as
equal under the default rule. -/
inductive Val where
  | vbool : Bool → Val
  | vcls : Cls → Val
  | vtup : List Val → Val

mutual
/-- Decidable equality for `Val`, mirroring Python structural equality
`==` on booleans, classes and tuples. -/
def vdeq : (a b : Val) → Decidable (a = b)
  | .vbool x, .vbool y =>
      if h : x = y then .isTrue (by rw [h]) else .isFalse (by simp [h])
  | .vbool _, .vcls _ => .isFalse nofun
  | .vbool _, .vtup _ => .isFalse nofun
  | .vcls _, .vbool _ => .isFalse nofun
  | .vcls x, .vcls y =>
      if h : x = y then .isTrue (by rw [h]) else .isFalse (by simp [h])
  | .vcls _, .vtup _ => .isFalse nofun
  | .vtup _, .vbool _ => .isFalse nofun
  | .vtup _, .vcls _ => .isFalse nofun
  | .vtup xs, .vtup ys =>
      match ldeq xs ys with
      | .isTrue h => .isTrue (by rw [h])
      | .isFalse h => .isFalse (by simp [h])

/-- Decidable equality on lists of values (tuple contents). -/
def ldeq : (xs ys : List Val) → Decidable (xs = ys)
  | [], [] => .isTrue rfl
  | [], _ :: _ => .isFalse nofun
  | _ :: _, [] => .isFalse nofun
  | x :: xs, y :: ys =>
      match vdeq x y, ldeq xs ys with
      | .isTrue h1, .isTrue h2 => .isTrue (by rw [h1, h2])
      | .isFalse h1, _ => .isFalse (by simp [h1])
      | .isTrue _, .isFalse h2 => .isFalse (by simp [h2])
end

instance : DecidableEq Val := vdeq

/-- Abbreviation: the tuple signature whose elements are the classes `cs`
(the canonical signature form used by the engine). -/
def ctup (cs : List Cls) : Val := .vtup (cs.map .vcls)

mutual
/-- The generic function `implies` of `core.py` (lines 333-347, 488-490),
restricted to non-action values, on which it is total.  Dispatch selects
the most specific applicable registered rule for the argument classes, so
the match arms are ordered most-specific-first:
two booleans use the `(bool, bool)` rule `c2 or not c1`; a boolean versus
anything else uses `(bool, object) -> not c1` resp. `(object, bool) -> c2`;
two tuples use `tuple_implies`; two classes use `issubclass`; every other
pair falls to the default rule `s1 == s2`, which is `False` across
distinct constructors. -/
def implies : Val → Val → Bool
  | .vbool b1, .vbool b2 => b2 || !b1
  | .vbool b1, _ => !b1
  | _, .vbool b2 => b2
  | .vtup s1, .vtup s2 =>
      if s2.length > s1.length then false   -- shorter tuple cannot imply longer
      else zipImplies s1 s2
  | .vcls c1, .vcls c2 => subclass c1 c2
  | _, _ => false

/-- The loop `for t1,t2 in zip(s1,s2): if not implies(t1,t2): return False`
of `tuple_implies` (`core.py` lines 343-347): `zip` truncates at the
shorter list. -/
def zipImplies : List Val → List Val → Bool
  | t1 :: s1, t2 :: s2 => implies t1 t2 && zipImplies s1 s2
  | _, _ => true
end

/-- The action algebra of `core.py`.
`method cls body sig prec tail canTail` is a `Method` instance: `cls` is a
tag for the concrete `Method` subclass (`0` = `Method` itself, other values
stand for user-defined direct subclasses that register no extra `implies`
rules); `body` is an opaque identifier of the Python body function;
`canTail` is the `can_tail` flag (true when the body's first formal is
`next_method`).  `around` is an `Around` instance (`body sig prec tail
canTail`).  `before`/`after` are `Before`/`After` method lists: `items`
are `(signature, precedence, body)` triples, plus a `tail`.  `noApp` is a
`NoApplicableMethods` instance and `amb ms` an `AmbiguousMethods` whose
(flattened) `methods` list is `ms`. -/
inductive Action where
  | method : Nat → Nat → Val → Int → Option Action → Bool → Action
  | around : Nat → Val → Int → Option Action → Bool → Action
  | before : List (Val × Int × Nat) → Option Action → Action
  | after : List (Val × Int × Nat) → Option Action → Action
  | noApp : Action
  | amb : List Action → Action

mutual
/-- Nesting depth of `AmbiguousMethods` structure: the measure along which
action-implication recurses (through `ambiguous_overrides` and
`override_ambiguous`). -/
def adepth : Action → Nat
  | .amb ms => 1 + mdepth ms
  | _ => 1

/-- Nesting depth for lists of ambiguous members. -/
def mdepth : List Action → Nat
  | [] => 0
  | a :: ms => 1 + adepth a + mdepth ms
end

mutual
/-- Fuel-indexed embedding of the generic function `implies` of `core.py`
on pairs of action instances.  Dispatch selects the most specific
applicable rule for the pair of concrete action classes; the match arms
are that selection, computed from the rules registered in `core.py`:
`method_implies` on `(Method, Method)` (line 360) and on `(Around, Around)`
(line 402); `always_overrides(Around, Method)` (line 399);
`always_overrides` of `(Around, Before)`, `(Around, After)`,
`(Before, After)`, `(Before, Method)`, `(After, Method)` (lines 524-528)
and `(Method, NoApplicableMethods)` (line 553); `merge_by_default` of
`MethodList` (line 470), `Before` (502), `After` (522), `DispatchError`
(544) and `AmbiguousMethods` (611); `ambiguous_overrides` and
`override_ambiguous` (lines 595-608).  The recursion through ambiguity
members is not structural, so fuel is used; the wrapper `impliesA`
supplies provably sufficient fuel. -/
def impGoA : Nat → Action → Action → Except PyErr Bool
  | 0, _, _ => .error .fuelOut
  | f + 1, a1, a2 =>
      match a1, a2 with
      | .method c1 _ s1 _ _ _, .method c2 _ s2 _ _ _ =>
          -- method_implies: same concrete class compares signatures,
          -- otherwise TypeError("Incompatible action types", a1, a2)
          if c1 = c2 then .ok (implies s1 s2)
          else .error (.typeError "Incompatible action types")
      | .around _ s1 _ _ _, .around _ s2 _ _ _ => .ok (implies s1 s2)
      | .around _ _ _ _ _, .method _ _ _ _ _ _ => .ok true
      | .method _ _ _ _ _ _, .around _ _ _ _ _ => .ok false
      | .around _ _ _ _ _, .before _ _ => .ok true
      | .before _ _, .around _ _ _ _ _ => .ok false
      | .around _ _ _ _ _, .after _ _ => .ok true
      | .after _ _, .around _ _ _ _ _ => .ok false
      | .before _ _, .before _ _ => .ok false
      | .after _ _, .after _ _ => .ok false
      | .before _ _, .after _ _ => .ok true
      | .after _ _, .before _ _ => .ok false
      | .before _ _, .method _ _ _ _ _ _ => .ok true
      | .method _ _ _ _ _ _, .before _ _ => .ok false
      | .after _ _, .method _ _ _ _ _ _ => .ok true
      | .method _ _ _ _ _ _, .after _ _ => .ok false
      | .method _ _ _ _ _ _, .noApp => .ok true
      | .around _ _ _ _ _, .noApp => .ok true
      | .before _ _, .noApp => .ok true
      | .after _ _, .noApp => .ok true
      | .noApp, .method _ _ _ _ _ _ => .ok false
      | .noApp, .around _ _ _ _ _ => .ok false
      | .noApp, .before _ _ => .ok false
      | .noApp, .after _ _ => .ok false
      | .noApp, .noApp => .ok false
      | .amb _, .amb _ => .ok false
      | .amb _, .noApp => .ok false
      | .noApp, .amb _ => .ok false
      | .amb ms, a2 => anyGo f ms a2
      | a1, .amb ms => allGo f a1 ms

/-- The loop of `ambiguous_overrides` (`core.py` lines 595-601): true as
soon as some ambiguous member overrides `a2`. -/
def anyGo : Nat → List Action → Action → Except PyErr Bool
  | 0, _, _ => .error .fuelOut
  | _ + 1, [], _ => .ok false
  | f + 1, m :: ms, a2 => do
      let b ← impGoA f m a2
      if b then pure true else anyGo f ms a2

/-- The loop of `override_ambiguous` (`core.py` lines 603-608): `a1` can
only override the ambiguity if it overrides every member. -/
def allGo : Nat → Action → List Action → Except PyErr Bool
  | 0, _, _ => .error .fuelOut
  | _ + 1, _, [] => .ok true
  | f + 1, a1, m :: ms => do
      let b ← impGoA f a1 m
      if !b then pure false else allGo f a1 ms
end

/-- The generic function `implies` of `core.py` on pairs of action
instances (see `impGoA`). -/
def impliesA (a1 a2 : Action) : Except PyErr Bool :=
  impGoA (adepth a1 + adepth a2 + 1) a1 a2

/-- The flattening performed by `AmbiguousMethods.__init__` (`core.py`
lines 578-585): members that are themselves `AmbiguousMethods` contribute
their method lists. -/
def flattenAM : List Action → List Action
  | [] => []
  | .amb ms :: rest => ms ++ flattenAM rest
  | a :: rest => a :: flattenAM rest

mutual
/-- Tail-chain depth of an action: the measure along which
`combine_actions`, `override` and `merge` recurse. -/
def asize : Action → Nat
  | .method _ _ _ _ tail _ => 2 + osize tail
  | .around _ _ _ tail _ => 2 + osize tail
  | .before _ tail => 2 + osize tail
  | .after _ tail => 2 + osize tail
  | .noApp => 1
  | .amb _ => 1

/-- Tail-chain depth of an optional action. -/
def osize : Option Action → Nat
  | none => 0
  | some a => 1 + asize a
end

mutual
/-- Fuel-indexed embedding of `combine_actions` (`core.py` lines 380-391).
The recursion through `override`'s tail combination is not structural, so
the three operations take a fuel argument; the wrappers `combine_actions`,
`Action.override` and `Action.merge` below supply provably sufficient
fuel, and `.error .fuelOut` is unreachable from them. -/
def combGo : Nat → Option Action → Option Action → Except PyErr (Option Action)
  | 0, _, _ => .error .fuelOut
  | _ + 1, none, a2 => .ok a2
  | _ + 1, some a1, none => .ok (some a1)
  | f + 1, some a1, some a2 => do
      let i12 ← impliesA a1 a2
      let i21 ← impliesA a2 a1
      if i12 then
        if !i21 then (ovrGo f a1 a2).map some
        else (mrgGo f a1 a2).map some
      else if i21 then (ovrGo f a2 a1).map some
      else (mrgGo f a1 a2).map some

/-- Fuel-indexed `override` (`Method.override`, `core.py` lines 73-79;
`MethodList` always has `can_tail`; `AmbiguousMethods.override` returns
itself, line 590; `DispatchError` has no `override` attribute, so invoking
it on `noApp` is an `AttributeError` - unreachable through
`combine_actions` because `noApp` never implies anything). -/
def ovrGo : Nat → Action → Action → Except PyErr Action
  | 0, _, _ => .error .fuelOut
  | f + 1, .method c b sig p tail ct, other =>
      if !ct then .ok (.method c b sig p tail ct)
      else do
        let t ← combGo f tail (some other)
        .ok (.method c b sig p t ct)
  | f + 1, .around b sig p tail ct, other =>
      if !ct then .ok (.around b sig p tail ct)
      else do
        let t ← combGo f tail (some other)
        .ok (.around b sig p t ct)
  | f + 1, .before items tail, other => do
      let t ← combGo f tail (some other)
      .ok (.before items t)
  | f + 1, .after items tail, other => do
      let t ← combGo f tail (some other)
      .ok (.after items t)
  | _ + 1, .noApp, _ => .error .attrError
  | _ + 1, .amb ms, _ => .ok (.amb ms)

/-- Fuel-indexed `merge`: `Method.merge` returns
`AmbiguousMethods([self, other])` (`core.py` line 89, inherited by
`Around`); `MethodList.merge` concatenates items of the same kind and
combines tails, raising `TypeError("Incompatible action types for merge")`
across kinds (lines 431-436, inherited by `Before`/`After`);
`NoApplicableMethods.merge` produces an ambiguity (line 551);
`AmbiguousMethods.merge` extends its list (line 588). -/
def mrgGo : Nat → Action → Action → Except PyErr Action
  | 0, _, _ => .error .fuelOut
  | _ + 1, .method c b sig p tail ct, other =>
      .ok (.amb (flattenAM [.method c b sig p tail ct, other]))
  | _ + 1, .around b sig p tail ct, other =>
      .ok (.amb (flattenAM [.around b sig p tail ct, other]))
  | f + 1, .before items tail, other =>
      match other with
      | .before items2 tail2 => do
          let t ← combGo f tail tail2
          .ok (.before (items ++ items2) t)
      | _ => .error (.typeError "Incompatible action types for merge")
  | f + 1, .after items tail, other =>
      match other with
      | .after items2 tail2 => do
          let t ← combGo f tail tail2
          .ok (.after (items ++ items2) t)
      | _ => .error (.typeError "Incompatible action types for merge")
  | _ + 1, .noApp, other => .ok (.amb (flattenAM [.noApp, other]))
  | _ + 1, .amb ms, other => .ok (.amb (flattenAM (ms ++ [other])))
end

/-- The function `combine_actions(a1, a2)` of `core.py` (lines 380-391). -/
def combine_actions (a1 a2 : Option Action) : Except PyErr (Option Action) :=
  combGo (osize a1 + osize a2 + 1) a1 a2

/-- The `override` method of actions (dispatched by concrete class). -/
def Action.override (a other : Action) : Except PyErr Action :=
  ovrGo (asize a + asize other + 1) a other

/-- The `merge` method of actions (dispatched by concrete class). -/
def Action.merge (a other : Action) : Except PyErr Action :=
  mrgGo (asize a + asize other + 1) a other

/-- The inner loop of `dominant_signatures` (`core.py` lines 632-651):
scan the snapshot `best[:]` taken when `new` starts its gauntlet, removing
from the live `best` every strictly less specific entry, and breaking (the
`false` flag, so `new` is not appended) at the first entry that strictly
dominates `new`.  `best.remove` removes the first `==`-equal element, as
`List.erase` does.  Bodies are opaque `Nat` identifiers. -/
def dsScan (np : Val × Nat) : List (Val × Nat) → List (Val × Nat) →
    List (Val × Nat) × Bool
  | [], best => (best, true)
  | op :: snap, best =>
      let nio := implies np.1 op.1
      let oin := implies op.1 np.1
      if nio then dsScan np snap (if !oin then best.erase op else best)
      else if oin then (best, false)
      else dsScan np snap best

/-- The outer loop of `dominant_signatures`: each remaining case runs the
gauntlet against the current `best` (which is also the snapshot) and is
appended when the inner loop completes without break. -/
def dsLoop : List (Val × Nat) → List (Val × Nat) → List (Val × Nat)
  | [], best => best
  | np :: rest, best =>
      let sb := dsScan np best best
      dsLoop rest (if sb.2 then sb.1 ++ [np] else sb.1)

/-- The function `dominant_signatures(cases)` of `core.py` (lines
616-653): most-specific `(signature, body)` pairs, single-element input
short-circuited. -/
def dominant_signatures (cases : List (Val × Nat)) : List (Val × Nat) :=
  if cases.length = 1 then cases
  else dsLoop (cases.drop 1) (cases.take 1)

/-- Stable insertion into a precedence-sorted item list: an item goes
after all earlier items of smaller-or-equal precedence (so the sort below
is stable, like Python's `list.sort`). -/
def insPrec (x : Val × Int × Nat) : List (Val × Int × Nat) →
    List (Val × Int × Nat)
  | [] => [x]
  | y :: ys => if y.2.1 < x.2.1 then y :: insPrec x ys else x :: y :: ys

/-- Stable ascending sort by precedence:
`self.items.sort(lambda a,b: cmp(a[1],b[1]))` (`core.py` line 456). -/
def sortPrec : List (Val × Int × Nat) → List (Val × Int × Nat)
  | [] => []
  | x :: xs => insPrec x (sortPrec xs)

/-- `map(rest.remove, best)` (`core.py` line 463): remove each winner of a
dominance pass from the remaining cases. -/
def removeAll (rest best : List (Val × Nat)) : List (Val × Nat) :=
  best.foldl (fun r x => r.erase x) rest

/-- The `while rest:` loop of `MethodList.sorted` (`core.py` lines
461-467), collecting the dominance passes in order.  The fuel is the
length of `rest`: each pass removes at least its non-empty winner set, so
the fuel never runs out when started at `rest.length`. -/
def sortedPass : Nat → List (Val × Nat) → List (Val × Nat)
  | 0, _ => []
  | _ + 1, [] => []
  | f + 1, rest =>
      let best := dominant_signatures rest
      best ++ sortedPass f (removeAll rest best)

/-- The `seen` filter of `MethodList.sorted` (lines 464-467): keep the
first occurrence of each body. -/
def dedupBodies : List (Val × Nat) → List Nat → List (Val × Nat)
  | [], _ => []
  | (s, b) :: items, seen =>
      if b ∈ seen then dedupBodies items seen
      else (s, b) :: dedupBodies items (b :: seen)

/-- `MethodList.sorted()` (`core.py` lines 452-468): stable-sort the
`(signature, precedence, body)` items by precedence, repeatedly extract
the dominant pairs, and de-duplicate bodies (the source interleaves the
`seen` filter with the passes; filtering the concatenation of the passes
is the same computation). -/
def sortedItems (items : List (Val × Int × Nat)) : List (Val × Nat) :=
  let st := (sortPrec items).map fun x => (x.1, x.2.2)
  dedupBodies (sortedPass st.length st) []

/-- `After.sorted()` (`core.py` lines 508-514): the reverse of the
`MethodList` sorting. -/
def sortedAfter (items : List (Val × Int × Nat)) : List (Val × Nat) :=
  (sortedItems items).reverse

/-- The result of invoking an action: the list of body identifiers invoked
in order, and the Python return value (`Option String`, `none` being
Python `None`) or the exception raised. -/
abbrev CallRes := List Nat × Except PyErr (Option String)

mutual
/-- Invocation semantics of actions, parametrised by the pure return
value `ret b` of each body `b`.
`Method.__call__` (`core.py` lines 68-71) invokes the body (a chainable
body receives `self.tail`; what the body does with it is the body's own
code, outside the model - no claim invokes a chainable body).
`Before.__call__` (lines 496-499) invokes each sorted item's body, then
returns the tail's result.  `After.__call__` (lines 516-519) invokes the
tail first, then each item's body in reverse sorted order; it assigns the
tail's result to `retval` but falls off the end without returning it, so
the call returns `None`.  `DispatchError.__call__` (lines 537-538) raises
the error itself. -/
def callA (ret : Nat → Option String) : Action → CallRes
  | .method _ b _ _ _ _ => ([b], .ok (ret b))
  | .around b _ _ _ _ => ([b], .ok (ret b))
  | .before items tail =>
      let bs := (sortedItems items).map fun x => x.2
      let t := callTail ret tail
      (bs ++ t.1, t.2)
  | .after items tail =>
      let t := callTail ret tail
      match t.2 with
      | .error e => (t.1, .error e)
      | .ok _ =>
          let bs := (sortedAfter items).map fun x => x.2
          (t.1 ++ bs, .ok none)
  | .noApp => ([], .error .noApplicableE)
  | .amb _ => ([], .error .ambiguousE)

/-- Invoke an optional tail; calling `None` is a Python `TypeError`
(`noneCall`) - combined actions built by the engine always have a real
tail in tail position. -/
def callTail (ret : Nat → Option String) : Option Action → CallRes
  | none => ([], .error .noneCall)
  | some a => callA ret a
end

/-- Registry lookup: `sig in self.registry` / `registry[sig]`
(`TypeEngine.add_method`, `core.py` lines 276-282).  The registry is an
association list from signatures to stored values; the stored value type
is `Option Action` so that the invariant that the engine never stores
`None` is a provable statement rather than a typing artifact. -/
def lookupSig : List (Val × Option Action) → Val → Option (Option Action)
  | [], _ => none
  | (k0, v0) :: reg, s => if k0 = s then some v0 else lookupSig reg s

/-- Registry update at an existing key: `registry[sig] = ...`. -/
def setSig : List (Val × Option Action) → Val → Option Action →
    List (Val × Option Action)
  | [], _, _ => []
  | (k0, v0) :: reg, s, v =>
      if k0 = s then (k0, v) :: reg else (k0, v0) :: setSig reg s v

/-- `TypeEngine.add_method(sig, action)` (`core.py` lines 276-282): at an
occupied signature the stored value becomes
`combine_actions(action, registry[sig])` (the new action first); at a
fresh signature the action is inserted as is. -/
def add_method (reg : List (Val × Option Action)) (sig : Val)
    (action : Action) : Except PyErr (List (Val × Option Action)) :=
  match lookupSig reg sig with
  | some old => do
      let c ← combine_actions (some action) old
      .ok (setSig reg sig c)
  | none => .ok (reg ++ [(sig, some action)])

/-- A sequence of `add_method` calls starting from an empty registry. -/
def addAll (reqs : List (Val × Action)) :
    Except PyErr (List (Val × Option Action)) :=
  reqs.foldlM (fun reg p => add_method reg p.1 p.2) []

/-- The cache-miss fold of `TypeEngine.generate_code` (`core.py` lines
295-306): starting from the ruleset's `default_action` (a
`NoApplicableMethods` instance, line 555), fold `combine_actions` over the
registry entries whose signature equals or is implied by the argument
class tuple `types`. -/
def dispatchFold (reg : List (Val × Option Action)) (types : Val) :
    Except PyErr (Option Action) :=
  reg.foldlM
    (fun a kv =>
      if types = kv.1 ∨ implies types kv.1 then combine_actions a kv.2
      else pure a)
    (some .noApp)

/-- End-to-end dispatch: build the registry from the added methods, fold
the applicable entries for the argument class tuple, and invoke the
resulting action. -/
def dispatchCall (reqs : List (Val × Action)) (types : Val)
    (ret : Nat → Option String) : Except PyErr CallRes := do
  let reg ← addAll reqs
  let a ← dispatchFold reg types
  match a with
  | some act => pure (callA ret act)
  | none => .error .noneCall

/-- Action kinds as registered by the decorator surface
(`Rule.actiontype`). -/
inductive ATy where
  | primaryT | aroundT | beforeT | afterT
  deriving DecidableEq

/-- A `Rule` struct `(body, predicate, actiontype)` (`core.py` lines
20-22); `struct()` tuples compare structurally.  `actiontype = none` means
the ruleset default. -/
structure RuleR where
  body : Nat
  predicate : Val
  actiontype : Option ATy
  deriving DecidableEq

/-- An `ActionDef` struct `(actiontype, body, signature, sequence)`
(`core.py` lines 24-26). -/
structure ActionDefR where
  actiontype : ATy
  body : Nat
  signature : Val
  sequence : Nat
  deriving DecidableEq

/-- `predicate_signatures(predicate)` (`core.py` lines 28-29): the trivial
one-signature expansion. -/
def predicate_signatures (predicate : Val) : List Val := [predicate]

/-- `RuleSet._actions_for` (`core.py` lines 206-209): one `ActionDef` per
expanded signature, with the rule's action type or the ruleset default
(`Method`, i.e. `primaryT`). -/
def actionsFor (r : RuleR) (seq : Nat) : List ActionDefR :=
  (predicate_signatures r.predicate).map fun s =>
    ⟨r.actiontype.getD .primaryT, r.body, s, seq⟩

/-- The state of a `RuleSet` (`core.py` lines 165-217): the ordered rule
list, the `actiondefs` mapping (an association list keyed by rule), and
the sequence counter. -/
structure RuleSetS where
  rules : List RuleR
  actiondefs : List (RuleR × Nat × List ActionDefR)
  counter : Nat

/-- A notification delivered to listeners by `RuleSet.notify`. -/
inductive Notif where
  | added (defs : List ActionDefR)
  | removed (defs : List ActionDefR)
  deriving DecidableEq

/-- Lookup in the `actiondefs` mapping (`self.actiondefs.pop(rule)`
checks this key). -/
def lookupRule : List (RuleR × Nat × List ActionDefR) → RuleR →
    Option (Nat × List ActionDefR)
  | [], _ => none
  | kv :: m, r => if kv.1 = r then some kv.2 else lookupRule m r

/-- Key removal from the `actiondefs` mapping. -/
def removeRuleKey : List (RuleR × Nat × List ActionDefR) → RuleR →
    List (RuleR × Nat × List ActionDefR)
  | [], _ => []
  | kv :: m, r => if kv.1 = r then m else kv :: removeRuleKey m r

/-- Dictionary update for `self.actiondefs[rule] = sequence, actiondefs`. -/
def setRule (m : List (RuleR × Nat × List ActionDefR)) (r : RuleR)
    (v : Nat × List ActionDefR) : List (RuleR × Nat × List ActionDefR) :=
  match m with
  | [] => [(r, v)]
  | kv :: m' => if kv.1 = r then (r, v) :: m' else kv :: setRule m' r v

/-- `RuleSet.add(rule)` (`core.py` lines 177-183): assign the next
sequence number, expand the action definitions, append the rule, record
the mapping and notify listeners of the additions. -/
def RuleSetS.addRule (rs : RuleSetS) (r : RuleR) : RuleSetS × List Notif :=
  let seq := rs.counter
  let defs := actionsFor r seq
  ({ rules := rs.rules ++ [r],
     actiondefs := setRule rs.actiondefs r (seq, defs),
     counter := rs.counter + 1 }, [.added defs])

/-- `RuleSet.remove(rule)` (`core.py` lines 185-188):
`self.actiondefs.pop(rule)` raises `KeyError` for an unknown rule before
any state is touched; on success the rule is removed from both structures
and listeners are notified of the removals. -/
def RuleSetS.removeRule (rs : RuleSetS) (r : RuleR) :
    Except PyErr (RuleSetS × List Notif) :=
  match lookupRule rs.actiondefs r with
  | none => .error .keyError
  | some (_, defs) =>
      .ok ({ rules := rs.rules.erase r,
             actiondefs := removeRuleKey rs.actiondefs r,
             counter := rs.counter }, [.removed defs])

/-- Strict domination between `(signature, body)` pairs: the first is
strictly more specific than the second under `implies`. -/
def StrictDom (x y : Val × Nat) : Prop :=
  implies x.1 y.1 = true ∧ implies y.1 x.1 = false

/-- Two `(signature, body)` pairs, neither of which strictly dominates
the other (they are mutually implying or incomparable). -/
def NonStrict (x y : Val × Nat) : Prop := ¬StrictDom x y ∧ ¬StrictDom y x

/-! ## Concrete dispatch scenarios -/

/-- The Before+After scenario of the spec (test scenario 5): a Primary
`P` (body 0, returns "P") on `(int,)`, a Before `B1` (body 1) on the more
specific signature `(int,)`, a Before `B2` (body 2) on `()`, and an After
`A` (body 3) on `(int,)`, registered in that order.  Precedences are the
rule sequence numbers, as assigned by `Engine.actions_changed`. -/
def c3Reqs : List (Val × Action) :=
  [ (ctup [.intc], .method 0 0 (ctup [.intc]) 0 none false),
    (ctup [.intc], .before [(ctup [.intc], 1, 1)] none),
    (ctup [], .before [(ctup [], 2, 2)] none),
    (ctup [.intc], .after [(ctup [.intc], 3, 3)] none) ]

/-- Body return values for the Before+After scenario. -/
def c3Ret : Nat → Option String :=
  fun b => if b = 0 then some "P" else
    if b = 1 then some "B1" else if b = 2 then some "B2" else some "A"

/-- The signature `(int,)` used by the duplicate-registration scenario. -/
def sigI : Val := ctup [.intc]

/-- Body return values for the duplicate-registration scenario. -/
def c4Ret : Nat → Option String := fun _ => some "X"

/-! ## Helper lemmas -/

theorem subclass_refl (c : Cls) : subclass c c = true := by
  cases c <;> rfl

theorem zipImplies_eq_all (xs : List Val) :
    ∀ ys, zipImplies xs ys = (xs.zip ys).all fun p => implies p.1 p.2 := by
  induction xs with
  | nil => intro ys; cases ys <;> rfl
  | cons x xs ih =>
      intro ys
      cases ys with
      | nil => rfl
      | cons y ys => simp [zipImplies, List.zip_cons_cons, List.all_cons, ih]

theorem implies_refl : ∀ v : Val, implies v v = true := by
  have key : ∀ n : Nat, (∀ v : Val, sizeOf v ≤ n → implies v v = true) ∧
      (∀ xs : List Val, sizeOf xs ≤ n → zipImplies xs xs = true) := by
    intro n
    induction n with
    | zero =>
        constructor
        · intro v hv; cases v <;> simp_arith at hv
        · intro xs hxs
          cases xs with
          | nil => rfl
          | cons x xs => simp_arith at hxs
    | succ n ih =>
        constructor
        · intro v hv
          cases v with
          | vbool b => cases b <;> rfl
          | vcls c => simpa [implies] using subclass_refl c
          | vtup xs =>
              have hx : sizeOf xs ≤ n := by simp_arith at hv; omega
              simp [implies, ih.2 xs hx]
        · intro xs hxs
          cases xs with
          | nil => rfl
          | cons x xs =>
              have hx : sizeOf x ≤ n := by simp_arith at hxs; omega
              have hxs' : sizeOf xs ≤ n := by simp_arith at hxs; omega
              simp [zipImplies, ih.1 x hx, ih.2 xs hxs']
  intro v
  exact (key (sizeOf v)).1 v le_rfl

theorem adepth_pos : ∀ a : Action, 1 ≤ adepth a := by
  intro a; cases a <;> simp [adepth]

theorem subclass_trans : ∀ c1 c2 c3 : Cls, subclass c1 c2 = true →
    subclass c2 c3 = true → subclass c1 c3 = true := by decide

theorem implies_trans : ∀ x y z : Val, implies x y = true →
    implies y z = true → implies x z = true := by
  have key : ∀ n : Nat,
      (∀ x y z : Val, sizeOf x + sizeOf y + sizeOf z ≤ n →
        implies x y = true → implies y z = true → implies x z = true)
    ∧ (∀ xs ys zs : List Val, sizeOf xs + sizeOf ys + sizeOf zs ≤ n →
        zs.length ≤ ys.length →
        zipImplies xs ys = true → zipImplies ys zs = true →
        zipImplies xs zs = true) := by
    intro n
    induction n with
    | zero =>
        constructor
        · intro x y z h; cases x <;> simp_arith at h
        · intro xs ys zs h _; cases xs <;> simp_arith at h
    | succ n ih =>
        constructor
        · intro x y z hn hxy hyz
          cases x with
          | vbool bx =>
              cases bx with
              | false =>
                  cases z with
                  | vbool bz => cases bz <;> rfl
                  | vcls c => rfl
                  | vtup zs => rfl
              | true =>
                  cases y with
                  | vbool by' =>
                      cases by' with
                      | false => cases hxy
                      | true =>
                          cases z with
                          | vbool bz => exact hyz
                          | vcls c => cases hyz
                          | vtup zs => cases hyz
                  | vcls c => cases hxy
                  | vtup ys => cases hxy
          | vcls c1 =>
              cases y with
              | vbool by' =>
                  cases by' with
                  | false => cases hxy
                  | true =>
                      cases z with
                      | vbool bz =>
                          cases bz with
                          | false => cases hyz
                          | true => rfl
                      | vcls c => cases hyz
                      | vtup zs => cases hyz
              | vcls c2 =>
                  cases z with
                  | vbool bz =>
                      cases bz with
                      | false => cases hyz
                      | true => rfl
                  | vcls c3 => exact subclass_trans c1 c2 c3 hxy hyz
                  | vtup zs => cases hyz
              | vtup ys => cases hxy
          | vtup xs =>
              cases y with
              | vbool by' =>
                  cases by' with
                  | false => cases hxy
                  | true =>
                      cases z with
                      | vbool bz =>
                          cases bz with
                          | false => cases hyz
                          | true => rfl
                      | vcls c => cases hyz
                      | vtup zs => cases hyz
              | vcls c2 => cases hxy
              | vtup ys =>
                  cases z with
                  | vbool bz =>
                      cases bz with
                      | false => cases hyz
                      | true => rfl
                  | vcls c3 => cases hyz
                  | vtup zs =>
                      simp only [implies] at hxy hyz ⊢
                      split at hxy
                      case isTrue => exact absurd hxy (by simp)
                      case isFalse hl1 =>
                        split at hyz
                        case isTrue => exact absurd hyz (by simp)
                        case isFalse hl2 =>
                          rw [if_neg (by omega : ¬zs.length > xs.length)]
                          exact ih.2 xs ys zs (by simp_arith at hn; omega)
                            (by omega) hxy hyz
        · intro xs ys zs hn hlen hxy hyz
          cases xs with
          | nil => cases zs <;> rfl
          | cons x xs =>
              cases ys with
              | nil =>
                  cases zs with
                  | nil => rfl
                  | cons z zs => simp at hlen
              | cons y ys =>
                  cases zs with
                  | nil => rfl
                  | cons z zs =>
                      simp only [zipImplies, Bool.and_eq_true] at hxy hyz ⊢
                      refine ⟨ih.1 x y z (by simp_arith at hn; omega) hxy.1 hyz.1,
                        ih.2 xs ys zs (by simp_arith at hn; omega)
                          (by simpa using hlen) hxy.2 hyz.2⟩
  intro x y z
  exact (key (sizeOf x + sizeOf y + sizeOf z)).1 x y z le_rfl

theorem StrictDom_trans (a b c : Val × Nat) (h1 : StrictDom a b)
    (h2 : StrictDom b c) : StrictDom a c := by
  refine ⟨implies_trans _ _ _ h1.1 h2.1, ?_⟩
  by_contra hc
  have hca : implies c.1 a.1 = true := by
    cases hv : implies c.1 a.1 with
    | false => exact absurd hv hc
    | true => rfl
  have : implies c.1 b.1 = true := implies_trans _ _ _ hca h1.1
  rw [h2.2] at this
  cases this

theorem impliesA_noApp_left : ∀ x : Action, impliesA .noApp x = .ok false := by
  intro x; cases x <;> rfl

/-! ## Claim C7: booleans as trivial predicates -/

/-- C7: booleans act as trivial predicates under `implies`:
`implies(true, x) = x` and `implies(x, false) = not x` for boolean `x`,
and `implies(false, s) = true`, `implies(s, true) = true` for every
value `s`. -/
theorem C7_bool_trivial_predicates :
    (∀ x : Bool, implies (.vbool true) (.vbool x) = x)
  ∧ (∀ s : Val, implies (.vbool false) s = true)
  ∧ (∀ s : Val, implies s (.vbool true) = true)
  ∧ (∀ x : Bool, implies (.vbool x) (.vbool false) = !x) := by
  refine ⟨?_, ?_, ?_, ?_⟩
  · intro x; cases x <;> rfl
  · intro s; cases s with
    | vbool b => cases b <;> rfl
    | vcls c => rfl
    | vtup xs => rfl
  · intro s; cases s with
    | vbool b => cases b <;> rfl
    | vcls c => rfl
    | vtup xs => rfl
  · intro x; cases x <;> rfl

/-! ## Claim C6: tuple signature implication -/

/-- C6 counterexample: the claim "the empty signature implies every
signature" is false in the code: `tuple_implies` returns `False` whenever
the right tuple is longer, so the empty tuple implies only itself. -/
theorem C6_counterexample_empty_implies :
    implies (.vtup []) (.vtup [.vcls .obj]) = false := by rfl

/-- C6 (amended): for tuple signatures, `implies(s1, s2)` is `False`
when `s2` is longer than `s1`, and otherwise equals the pointwise
conjunction of `implies` over the first `length s2` positions (`zip`
truncation); moreover every tuple signature implies the empty signature
(the original claim stated the converse direction). -/
theorem C6_tuple_implies (xs ys : List Val) :
    (ys.length > xs.length → implies (.vtup xs) (.vtup ys) = false)
  ∧ (ys.length ≤ xs.length →
      implies (.vtup xs) (.vtup ys) = (xs.zip ys).all fun p => implies p.1 p.2)
  ∧ implies (.vtup xs) (.vtup []) = true := by
  refine ⟨fun h => ?_, fun h => ?_, ?_⟩
  · simp [implies, h]
  · simp [implies, Nat.not_lt.mpr h, zipImplies_eq_all]
  · cases xs <;> rfl

@[simp] theorem osize_some (a : Action) : osize (some a) = 1 + asize a := rfl

@[simp] theorem osize_none : osize none = 0 := rfl

@[simp] theorem asize_method (c b : Nat) (s : Val) (p : Int)
    (t : Option Action) (ct : Bool) :
    asize (.method c b s p t ct) = 2 + osize t := rfl

@[simp] theorem asize_around (b : Nat) (s : Val) (p : Int)
    (t : Option Action) (ct : Bool) :
    asize (.around b s p t ct) = 2 + osize t := rfl

@[simp] theorem asize_before (items : List (Val × Int × Nat))
    (t : Option Action) : asize (.before items t) = 2 + osize t := rfl

@[simp] theorem asize_after (items : List (Val × Int × Nat))
    (t : Option Action) : asize (.after items t) = 2 + osize t := rfl

@[simp] theorem asize_noApp : asize .noApp = 1 := rfl

@[simp] theorem asize_amb (ms : List Action) : asize (.amb ms) = 1 := rfl

@[simp] theorem adepth_method (c b : Nat) (s : Val) (p : Int)
    (t : Option Action) (ct : Bool) : adepth (.method c b s p t ct) = 1 := rfl

@[simp] theorem adepth_around (b : Nat) (s : Val) (p : Int)
    (t : Option Action) (ct : Bool) : adepth (.around b s p t ct) = 1 := rfl

@[simp] theorem adepth_before (items : List (Val × Int × Nat))
    (t : Option Action) : adepth (.before items t) = 1 := rfl

@[simp] theorem adepth_after (items : List (Val × Int × Nat))
    (t : Option Action) : adepth (.after items t) = 1 := rfl

@[simp] theorem adepth_noApp : adepth .noApp = 1 := rfl

@[simp] theorem adepth_amb (ms : List Action) :
    adepth (.amb ms) = 1 + mdepth ms := rfl

@[simp] theorem mdepth_nil : mdepth [] = 0 := rfl

@[simp] theorem mdepth_cons (a : Action) (ms : List Action) :
    mdepth (a :: ms) = 1 + adepth a + mdepth ms := rfl

theorem asize_pos : ∀ a : Action, 1 ≤ asize a := by
  intro a; cases a <;> simp <;> omega

@[simp] theorem errBind {α β : Type} (e : PyErr) (g : α → Except PyErr β) :
    ((Except.error e : Except PyErr α) >>= g) = .error e := rfl

@[simp] theorem okBind {α β : Type} (x : α) (g : α → Except PyErr β) :
    ((Except.ok x : Except PyErr α) >>= g) = g x := rfl

@[simp] theorem purePyErr {α : Type} (x : α) :
    (pure x : Except PyErr α) = .ok x := rfl

/-- Errors escaping the fuelled action-implication functions at
sufficient fuel are exactly the `method_implies` incompatibility. -/
theorem impA_err : ∀ f : Nat,
    (∀ a1 a2 e, adepth a1 + adepth a2 ≤ f → impGoA f a1 a2 = .error e →
      e = .typeError "Incompatible action types")
  ∧ (∀ ms a2 e, mdepth ms + adepth a2 ≤ f → anyGo f ms a2 = .error e →
      e = .typeError "Incompatible action types")
  ∧ (∀ a1 ms e, adepth a1 + mdepth ms ≤ f → allGo f a1 ms = .error e →
      e = .typeError "Incompatible action types") := by
  intro f
  induction f with
  | zero =>
      refine ⟨fun a1 a2 e hm _ => ?_, fun ms a2 e hm _ => ?_,
        fun a1 ms e hm _ => ?_⟩
      · have := adepth_pos a1; omega
      · have := adepth_pos a2; omega
      · have := adepth_pos a1; omega
  | succ f ih =>
      obtain ⟨ihI, ihAny, ihAll⟩ := ih
      refine ⟨?_, ?_, ?_⟩
      · intro a1 a2 e hm he
        cases a1 <;> cases a2 <;> simp only [impGoA] at he <;> simp at hm
        case method.method =>
          split at he
          · exact absurd he (by simp)
          · exact (Except.error.injEq _ _).mp he.symm
        case amb.method => exact ihAny _ _ _ (by simp; omega) he
        case amb.around => exact ihAny _ _ _ (by simp; omega) he
        case amb.before => exact ihAny _ _ _ (by simp; omega) he
        case amb.after => exact ihAny _ _ _ (by simp; omega) he
        case method.amb => exact ihAll _ _ _ (by simp; omega) he
        case around.amb => exact ihAll _ _ _ (by simp; omega) he
        case before.amb => exact ihAll _ _ _ (by simp; omega) he
        case after.amb => exact ihAll _ _ _ (by simp; omega) he
        all_goals exact absurd he (by simp)
      · intro ms a2 e hm he
        cases ms with
        | nil => exact absurd he (by simp [anyGo])
        | cons m ms =>
            simp only [anyGo] at he
            simp at hm
            cases hb : impGoA f m a2 with
            | error e' =>
                rw [hb] at he
                simp only [errBind] at he
                cases he
                exact ihI _ _ _ (by omega) hb
            | ok b =>
                rw [hb] at he
                simp only [okBind] at he
                cases b with
                | true => exact absurd he (by simp)
                | false => exact ihAny ms a2 e (by omega) (by simpa using he)
      · intro a1 ms e hm he
        cases ms with
        | nil => exact absurd he (by simp [allGo])
        | cons m ms =>
            simp only [allGo] at he
            simp at hm
            cases hb : impGoA f a1 m with
            | error e' =>
                rw [hb] at he
                simp only [errBind] at he
                cases he
                exact ihI _ _ _ (by omega) hb
            | ok b =>
                rw [hb] at he
                simp only [okBind] at he
                cases b with
                | false => exact absurd he (by simp)
                | true => exact ihAll a1 ms e (by omega) (by simpa using he)

/-- Corollary: `implies` on actions raises only the `method_implies`
incompatibility `TypeError`. -/
theorem impliesA_err (a1 a2 : Action) (e : PyErr)
    (he : impliesA a1 a2 = .error e) :
    e = .typeError "Incompatible action types" :=
  (impA_err (adepth a1 + adepth a2 + 1)).1 a1 a2 e (by omega) he

/-- Fuel irrelevance for the combine family: any two sufficient fuels
compute the same result. -/
theorem comb_irrel : ∀ f g : Nat,
    (∀ a1 a2, osize a1 + osize a2 < f → osize a1 + osize a2 < g →
      combGo f a1 a2 = combGo g a1 a2)
  ∧ (∀ a o, asize a + asize o < f → asize a + asize o < g →
      ovrGo f a o = ovrGo g a o)
  ∧ (∀ a o, asize a + asize o < f → asize a + asize o < g →
      mrgGo f a o = mrgGo g a o) := by
  intro f
  induction f with
  | zero =>
      intro g
      exact ⟨fun a1 a2 hf _ => absurd hf (by omega),
        fun a o hf _ => absurd hf (by omega),
        fun a o hf _ => absurd hf (by omega)⟩
  | succ f ih =>
      intro g
      cases g with
      | zero =>
          exact ⟨fun a1 a2 _ hg => absurd hg (by omega),
            fun a o _ hg => absurd hg (by omega),
            fun a o _ hg => absurd hg (by omega)⟩
      | succ g =>
          obtain ⟨ihC, ihO, ihM⟩ := ih g
          refine ⟨?_, ?_, ?_⟩
          · intro a1 a2 hf hg
            cases a1 with
            | none => rfl
            | some a1 =>
                cases a2 with
                | none => rfl
                | some a2 =>
                    simp only [osize_some] at hf hg
                    simp only [combGo]
                    cases h12 : impliesA a1 a2 with
                    | error e => simp [h12]
                    | ok i12 =>
                        simp only [h12, okBind]
                        cases h21 : impliesA a2 a1 with
                        | error e => simp [h21]
                        | ok i21 =>
                            simp only [h21, okBind]
                            cases i12 <;> cases i21 <;> simp
                            · exact congrArg (Except.map some)
                                (ihM a1 a2 (by omega) (by omega))
                            · exact congrArg (Except.map some)
                                (ihO a2 a1 (by omega) (by omega))
                            · exact congrArg (Except.map some)
                                (ihO a1 a2 (by omega) (by omega))
                            · exact congrArg (Except.map some)
                                (ihM a1 a2 (by omega) (by omega))
          · intro a o hf hg
            cases a with
            | method c b sig p tail ct =>
                simp only [asize] at hf hg
                simp only [ovrGo]
                cases ct with
                | false => rfl
                | true =>
                    simp only [Bool.not_true, if_false]
                    rw [ihC tail (some o) (by simp [osize_some]; omega)
                      (by simp [osize_some]; omega)]
            | around b sig p tail ct =>
                simp only [asize] at hf hg
                simp only [ovrGo]
                cases ct with
                | false => rfl
                | true =>
                    simp only [Bool.not_true, if_false]
                    rw [ihC tail (some o) (by simp [osize_some]; omega)
                      (by simp [osize_some]; omega)]
            | before items tail =>
                simp only [asize] at hf hg
                simp only [ovrGo]
                rw [ihC tail (some o) (by simp [osize_some]; omega)
                  (by simp [osize_some]; omega)]
            | after items tail =>
                simp only [asize] at hf hg
                simp only [ovrGo]
                rw [ihC tail (some o) (by simp [osize_some]; omega)
                  (by simp [osize_some]; omega)]
            | noApp => rfl
            | amb ms => rfl
          · intro a o hf hg
            cases a with
            | method c b sig p tail ct => rfl
            | around b sig p tail ct => rfl
            | before items tail =>
                simp only [asize] at hf hg
                cases o <;> simp only [mrgGo]
                case before items2 tail2 =>
                  rw [ihC tail tail2 (by simp only [asize] at hf; omega)
                    (by simp only [asize] at hg; omega)]
            | after items tail =>
                simp only [asize] at hf hg
                cases o <;> simp only [mrgGo]
                case after items2 tail2 =>
                  rw [ihC tail tail2 (by simp only [asize] at hf; omega)
                    (by simp only [asize] at hg; omega)]
            | noApp => rfl
            | amb ms => rfl

@[simp] theorem mapErr {α β : Type} (e : PyErr) (g : α → β) :
    (Except.error e : Except PyErr α).map g = .error e := rfl

@[simp] theorem mapOk {α β : Type} (x : α) (g : α → β) :
    (Except.ok x : Except PyErr α).map g = .ok (g x) := rfl

/-- Errors escaping the fuelled combine family at sufficient fuel are
exactly the two `TypeError`s of the source (`method_implies` and
`MethodList.merge`); in particular fuel never runs out and `override` is
never reached on a `DispatchError` action. -/
theorem comb_err : ∀ f : Nat,
    (∀ a1 a2 e, osize a1 + osize a2 < f → combGo f a1 a2 = .error e →
      e = .typeError "Incompatible action types" ∨
      e = .typeError "Incompatible action types for merge")
  ∧ (∀ a o e, asize a + asize o < f → a ≠ .noApp → ovrGo f a o = .error e →
      e = .typeError "Incompatible action types" ∨
      e = .typeError "Incompatible action types for merge")
  ∧ (∀ a o e, asize a + asize o < f → mrgGo f a o = .error e →
      e = .typeError "Incompatible action types" ∨
      e = .typeError "Incompatible action types for merge") := by
  intro f
  induction f with
  | zero =>
      exact ⟨fun a1 a2 e hm => absurd hm (by omega),
        fun a o e hm => absurd hm (by omega),
        fun a o e hm => absurd hm (by omega)⟩
  | succ f ih =>
      obtain ⟨ihC, ihO, ihM⟩ := ih
      refine ⟨?_, ?_, ?_⟩
      · intro a1 a2 e hm he
        cases a1 with
        | none => exact absurd he (by simp [combGo])
        | some a1 =>
            cases a2 with
            | none => exact absurd he (by simp [combGo])
            | some a2 =>
                simp only [osize_some] at hm
                simp only [combGo] at he
                cases h12 : impliesA a1 a2 with
                | error e1 =>
                    rw [h12] at he; simp only [errBind] at he
                    cases he
                    exact Or.inl (impliesA_err _ _ _ h12)
                | ok i12 =>
                    rw [h12] at he; simp only [okBind] at he
                    cases h21 : impliesA a2 a1 with
                    | error e1 =>
                        rw [h21] at he; simp only [errBind] at he
                        cases he
                        exact Or.inl (impliesA_err _ _ _ h21)
                    | ok i21 =>
                        rw [h21] at he; simp only [okBind] at he
                        cases i12 <;> cases i21 <;> simp at he
                        · cases hx : mrgGo f a1 a2 with
                          | error e1 =>
                              rw [hx] at he; rw [mapErr] at he; cases he
                              exact ihM a1 a2 _ (by omega) hx
                          | ok x => rw [hx] at he; rw [mapOk] at he; cases he
                        · cases hx : ovrGo f a2 a1 with
                          | error e1 =>
                              rw [hx] at he; rw [mapErr] at he; cases he
                              refine ihO a2 a1 _ (by omega) ?_ hx
                              intro hh
                              rw [hh, impliesA_noApp_left] at h21
                              cases h21
                          | ok x => rw [hx] at he; rw [mapOk] at he; cases he
                        · cases hx : ovrGo f a1 a2 with
                          | error e1 =>
                              rw [hx] at he; rw [mapErr] at he; cases he
                              refine ihO a1 a2 _ (by omega) ?_ hx
                              intro hh
                              rw [hh, impliesA_noApp_left] at h12
                              cases h12
                          | ok x => rw [hx] at he; rw [mapOk] at he; cases he
                        · cases hx : mrgGo f a1 a2 with
                          | error e1 =>
                              rw [hx] at he; rw [mapErr] at he; cases he
                              exact ihM a1 a2 _ (by omega) hx
                          | ok x => rw [hx] at he; rw [mapOk] at he; cases he
      · intro a o e hm hne he
        cases a with
        | method c b sig p tail ct =>
            simp only [asize_method] at hm
            simp only [ovrGo] at he
            cases ct with
            | false => exact absurd he (by simp)
            | true =>
                simp only [Bool.not_true] at he
                simp only [Bool.false_eq_true, if_false] at he
                cases hc : combGo f tail (some o) with
                | error e1 =>
                    rw [hc] at he; simp only [errBind] at he
                    cases he
                    exact ihC tail (some o) _ (by simp; omega) hc
                | ok x => rw [hc] at he; simp only [okBind] at he; cases he
        | around b sig p tail ct =>
            simp only [asize_around] at hm
            simp only [ovrGo] at he
            cases ct with
            | false => exact absurd he (by simp)
            | true =>
                simp only [Bool.not_true] at he
                simp only [Bool.false_eq_true, if_false] at he
                cases hc : combGo f tail (some o) with
                | error e1 =>
                    rw [hc] at he; simp only [errBind] at he
                    cases he
                    exact ihC tail (some o) _ (by simp; omega) hc
                | ok x => rw [hc] at he; simp only [okBind] at he; cases he
        | before items tail =>
            simp only [asize_before] at hm
            simp only [ovrGo] at he
            cases hc : combGo f tail (some o) with
            | error e1 =>
                rw [hc] at he; simp only [errBind] at he
                cases he
                exact ihC tail (some o) _ (by simp; omega) hc
            | ok x => rw [hc] at he; simp only [okBind] at he; cases he
        | after items tail =>
            simp only [asize_after] at hm
            simp only [ovrGo] at he
            cases hc : combGo f tail (some o) with
            | error e1 =>
                rw [hc] at he; simp only [errBind] at he
                cases he
                exact ihC tail (some o) _ (by simp; omega) hc
            | ok x => rw [hc] at he; simp only [okBind] at he; cases he
        | noApp => exact absurd rfl hne
        | amb ms => exact absurd he (by simp [ovrGo])
      · intro a o e hm he
        cases a with
        | method c b sig p tail ct => exact absurd he (by simp [mrgGo])
        | around b sig p tail ct => exact absurd he (by simp [mrgGo])
        | before items tail =>
            simp only [asize_before] at hm
            cases o <;> simp only [mrgGo] at he
            case before items2 tail2 =>
              simp only [asize_before] at hm
              cases hc : combGo f tail tail2 with
              | error e1 =>
                  rw [hc] at he; simp only [errBind] at he
                  cases he
                  exact ihC tail tail2 _ (by omega) hc
              | ok x => rw [hc] at he; simp only [okBind] at he; cases he
            all_goals (cases he; exact Or.inr rfl)
        | after items tail =>
            simp only [asize_after] at hm
            cases o <;> simp only [mrgGo] at he
            case after items2 tail2 =>
              simp only [asize_after] at hm
              cases hc : combGo f tail tail2 with
              | error e1 =>
                  rw [hc] at he; simp only [errBind] at he
                  cases he
                  exact ihC tail tail2 _ (by omega) hc
              | ok x => rw [hc] at he; simp only [okBind] at he; cases he
            all_goals (cases he; exact Or.inr rfl)
        | noApp => exact absurd he (by simp [mrgGo])
        | amb ms => exact absurd he (by simp [mrgGo])

/-- Case equations of `combine_actions` in terms of `override` and
`merge`, under the outcome of the two `implies` tests (the structure of
`core.py` lines 380-391). -/
theorem combine_none_left (a2 : Option Action) :
    combine_actions none a2 = .ok a2 := by
  cases a2 <;> rfl

theorem combine_some_none (a1 : Action) :
    combine_actions (some a1) none = .ok (some a1) := rfl

theorem combine_override_left (a1 a2 : Action)
    (h12 : impliesA a1 a2 = .ok true) (h21 : impliesA a2 a1 = .ok false) :
    combine_actions (some a1) (some a2) = (a1.override a2).map some := by
  simp only [combine_actions, combGo, h12, h21, okBind]
  simp only [Action.override]
  rw [(comb_irrel (osize (some a1) + osize (some a2))
    (asize a1 + asize a2 + 1)).2.1 a1 a2 (by simp; omega) (by omega)]
  simp

theorem combine_override_right (a1 a2 : Action)
    (h12 : impliesA a1 a2 = .ok false) (h21 : impliesA a2 a1 = .ok true) :
    combine_actions (some a1) (some a2) = (a2.override a1).map some := by
  simp only [combine_actions, combGo, h12, h21, okBind]
  simp only [Action.override]
  rw [(comb_irrel (osize (some a1) + osize (some a2))
    (asize a2 + asize a1 + 1)).2.1 a2 a1 (by simp; omega) (by omega)]
  simp

theorem combine_merge (a1 a2 : Action) (r : Bool)
    (h12 : impliesA a1 a2 = .ok r) (h21 : impliesA a2 a1 = .ok r) :
    combine_actions (some a1) (some a2) = (a1.merge a2).map some := by
  simp only [combine_actions, combGo, h12, h21, okBind]
  simp only [Action.merge]
  cases r <;> simp <;>
    exact congrArg (Except.map some)
      ((comb_irrel (1 + asize a1 + (1 + asize a2)) (asize a1 + asize a2 + 1)).2.2
        a1 a2 (by omega) (by omega))

/-! ## Claim C5: reflexivity of implies -/

/-- C5 counterexample: `implies(s, s)` is not true for every accepted
value: for a `Before` instance (a `merge_by_default` kind) the registered
rule is `implies(Before, Before) = NO`, so self-implication is `False`. -/
theorem C5_counterexample_before_not_reflexive :
    impliesA (.before [] none) (.before [] none) = .ok false := by rfl

/-- C5 (amended): `implies(s, s)` is true for booleans, classes, tuples
(of any values) and for `Method` and `Around` instances; but for every
kind declared `merge_by_default` - `MethodList` kinds (`Before`, `After`)
and `DispatchError` kinds (`NoApplicableMethods`, `AmbiguousMethods`) -
the registered rule makes `implies(s, s)` `False` (forcing a merge
rather than an override), refuting the original universal claim. -/
theorem C5_implies_reflexivity :
    (∀ v : Val, implies v v = true)
  ∧ (∀ c b s p t ct, impliesA (.method c b s p t ct) (.method c b s p t ct)
      = .ok true)
  ∧ (∀ b s p t ct, impliesA (.around b s p t ct) (.around b s p t ct)
      = .ok true)
  ∧ (∀ items t, impliesA (.before items t) (.before items t) = .ok false)
  ∧ (∀ items t, impliesA (.after items t) (.after items t) = .ok false)
  ∧ impliesA .noApp .noApp = .ok false
  ∧ (∀ ms, impliesA (.amb ms) (.amb ms) = .ok false) := by
  refine ⟨implies_refl, ?_, ?_, fun _ _ => rfl, fun _ _ => rfl, rfl, fun _ => rfl⟩
  · intro c b s p t ct
    simp [impliesA, impGoA, adepth, implies_refl]
  · intro b s p t ct
    simp [impliesA, impGoA, adepth, implies_refl]

theorem C6_tuple_implies_witness :
    ((2 : Nat) > 1 → implies (.vtup [.vcls .obj]) (.vtup [.vcls .obj, .vcls .obj]) = false)
  ∧ ((1 : Nat) ≤ 2 →
      implies (.vtup [.vcls .boolc, .vcls .strc]) (.vtup [.vcls .intc]) =
        ([(Val.vcls .boolc, Val.vcls .intc)].all fun p => implies p.1 p.2))
  ∧ implies (.vtup [.vcls .strc]) (.vtup []) = true := by
  refine ⟨(C6_tuple_implies [.vcls .obj] [.vcls .obj, .vcls .obj]).1,
    fun _ => ?_, (C6_tuple_implies [.vcls .strc] []).2.2⟩
  exact (C6_tuple_implies [.vcls .boolc, .vcls .strc] [.vcls .intc]).2.1 (by decide)

/-! ## Claim C1: the combine_actions case table -/

/-- C1: `combine_actions(a1, a2)` returns `a2` when `a1` is `None`, `a1`
when `a2` is `None`, `a1.override(a2)` when `implies(a1,a2)` holds and
`implies(a2,a1)` does not, `a2.override(a1)` in the symmetric case, and
`a1.merge(a2)` otherwise (mutual implication or neither direction). -/
theorem C1_combine_actions_cases :
    (∀ a2 : Option Action, combine_actions none a2 = .ok a2)
  ∧ (∀ a1 : Action, combine_actions (some a1) none = .ok (some a1))
  ∧ (∀ a1 a2 : Action, impliesA a1 a2 = .ok true → impliesA a2 a1 = .ok false →
      combine_actions (some a1) (some a2) = (a1.override a2).map some)
  ∧ (∀ a1 a2 : Action, impliesA a2 a1 = .ok true → impliesA a1 a2 = .ok false →
      combine_actions (some a1) (some a2) = (a2.override a1).map some)
  ∧ (∀ (a1 a2 : Action) (r : Bool), impliesA a1 a2 = .ok r →
      impliesA a2 a1 = .ok r →
      combine_actions (some a1) (some a2) = (a1.merge a2).map some) :=
  ⟨combine_none_left, combine_some_none,
   fun a1 a2 h12 h21 => combine_override_left a1 a2 h12 h21,
   fun a1 a2 h21 h12 => combine_override_right a1 a2 h12 h21,
   fun a1 a2 r h12 h21 => combine_merge a1 a2 r h12 h21⟩

theorem C1_combine_actions_cases_witness :
    combine_actions (some (Action.around 1 (ctup []) 0 none false))
        (some (Action.method 0 2 (ctup []) 0 none false))
      = ((Action.around 1 (ctup []) 0 none false).override
          (Action.method 0 2 (ctup []) 0 none false)).map some
  ∧ combine_actions (some (Action.before [] none))
        (some (Action.before [] none))
      = ((Action.before [] none).merge (Action.before [] none)).map some :=
  ⟨C1_combine_actions_cases.2.2.1 _ _ (by rfl) (by rfl),
   C1_combine_actions_cases.2.2.2.2 _ _ false (by rfl) (by rfl)⟩

/-- Errors escaping a whole sequence of `add_method` calls come from
`combine_actions` alone. -/
theorem addAll_err : ∀ (reqs : List (Val × Action))
    (reg0 : List (Val × Option Action)) (e : PyErr),
    List.foldlM (fun reg p => add_method reg p.1 p.2) reg0 reqs = .error e →
    e = .typeError "Incompatible action types" ∨
    e = .typeError "Incompatible action types for merge" := by
  intro reqs
  induction reqs with
  | nil => intro reg0 e h; cases h
  | cons p reqs ih =>
      intro reg0 e h
      rw [List.foldlM_cons] at h
      cases h1 : add_method reg0 p.1 p.2 with
      | ok r1 =>
          rw [h1] at h
          simp only [okBind] at h
          exact ih r1 e h
      | error e1 =>
          rw [h1] at h
          simp only [errBind] at h
          cases h
          unfold add_method at h1
          cases hl : lookupSig reg0 p.1 with
          | none => rw [hl] at h1; cases h1
          | some old =>
              rw [hl] at h1
              simp only [bind, Except.bind] at h1
              cases hc : combine_actions (some p.2) old with
              | ok c => rw [hc] at h1; cases h1
              | error e2 =>
                  rw [hc] at h1
                  cases h1
                  exact (comb_err (osize (some p.2) + osize old + 1)).1 _ _ _
                    (by omega) hc

/-! ## Claim C9: the only build-time failures -/

/-- C9: combining two `Method`-class actions of different concrete classes
(with no `always_overrides` axiom between them) raises
`TypeError("Incompatible action types")`; merging method lists of
different kinds raises `TypeError("Incompatible action types for
merge")`; these two are the only errors `combine_actions` can raise; and
specificity conflicts between same-class Primaries never raise at build
time (they produce an `AmbiguousMethods` value instead). -/
theorem C9_build_time_failures :
    (∀ (c1 c2 b1 b2 : Nat) (s1 s2 : Val) (p1 p2 : Int)
        (t1 t2 : Option Action) (ct1 ct2 : Bool), c1 ≠ c2 →
      combine_actions (some (.method c1 b1 s1 p1 t1 ct1))
          (some (.method c2 b2 s2 p2 t2 ct2))
        = .error (.typeError "Incompatible action types"))
  ∧ (∀ (i1 i2 : List (Val × Int × Nat)) (t1 t2 : Option Action),
      (Action.before i1 t1).merge (.after i2 t2)
          = .error (.typeError "Incompatible action types for merge")
      ∧ (Action.after i2 t2).merge (.before i1 t1)
          = .error (.typeError "Incompatible action types for merge"))
  ∧ (∀ (a1 a2 : Option Action) (e : PyErr), combine_actions a1 a2 = .error e →
      e = .typeError "Incompatible action types" ∨
      e = .typeError "Incompatible action types for merge")
  ∧ (∀ (reqs : List (Val × Action)) (e : PyErr), addAll reqs = .error e →
      e = .typeError "Incompatible action types" ∨
      e = .typeError "Incompatible action types for merge")
  ∧ (∀ (c b1 b2 : Nat) (cs1 cs2 : List Cls) (p1 p2 : Int), ∃ a : Action,
      combine_actions (some (.method c b1 (ctup cs1) p1 none false))
          (some (.method c b2 (ctup cs2) p2 none false)) = .ok (some a)) := by
  refine ⟨?_, fun i1 i2 t1 t2 => ⟨rfl, rfl⟩, ?_,
    fun reqs e h => addAll_err reqs [] e h, ?_⟩
  · intro c1 c2 b1 b2 s1 s2 p1 p2 t1 t2 ct1 ct2 h
    have him : impliesA (.method c1 b1 s1 p1 t1 ct1) (.method c2 b2 s2 p2 t2 ct2)
        = .error (.typeError "Incompatible action types") := by
      show (if c1 = c2 then (Except.ok (implies s1 s2) : Except PyErr Bool)
          else .error (.typeError "Incompatible action types")) = _
      rw [if_neg h]
    simp only [combine_actions, combGo, him, errBind]
  · intro a1 a2 e he
    exact (comb_err (osize a1 + osize a2 + 1)).1 a1 a2 e (by omega) he
  · intro c b1 b2 cs1 cs2 p1 p2
    have h12 : impliesA (.method c b1 (ctup cs1) p1 none false)
        (.method c b2 (ctup cs2) p2 none false)
        = .ok (implies (ctup cs1) (ctup cs2)) := by
      show (if c = c then (Except.ok (implies (ctup cs1) (ctup cs2)) :
          Except PyErr Bool) else _) = _
      rw [if_pos rfl]
    have h21 : impliesA (.method c b2 (ctup cs2) p2 none false)
        (.method c b1 (ctup cs1) p1 none false)
        = .ok (implies (ctup cs2) (ctup cs1)) := by
      show (if c = c then (Except.ok (implies (ctup cs2) (ctup cs1)) :
          Except PyErr Bool) else _) = _
      rw [if_pos rfl]
    cases hb1 : implies (ctup cs1) (ctup cs2) <;>
      cases hb2 : implies (ctup cs2) (ctup cs1)
    · exact ⟨_, by rw [combine_merge _ _ false (by rw [h12, hb1])
        (by rw [h21, hb2])]; rfl⟩
    · exact ⟨_, by rw [combine_override_right _ _ (by rw [h12, hb1])
        (by rw [h21, hb2])]; rfl⟩
    · exact ⟨_, by rw [combine_override_left _ _ (by rw [h12, hb1])
        (by rw [h21, hb2])]; rfl⟩
    · exact ⟨_, by rw [combine_merge _ _ true (by rw [h12, hb1])
        (by rw [h21, hb2])]; rfl⟩

theorem C9_build_time_failures_witness :
    combine_actions (some (.method 0 1 (ctup []) 0 none false))
        (some (.method 1 2 (ctup []) 0 none false))
      = .error (.typeError "Incompatible action types")
  ∧ ∃ a : Action, combine_actions (some (.method 0 1 (ctup [.intc]) 0 none false))
      (some (.method 0 2 (ctup [.strc]) 0 none false)) = .ok (some a) :=
  ⟨C9_build_time_failures.1 0 1 1 2 (ctup []) (ctup []) 0 0 none none
      false false (by decide),
   C9_build_time_failures.2.2.2.2 0 1 2 [.intc] [.strc] 0 0⟩

/-! ## Claim C8: registry shape under add_method -/

theorem lookupSig_none_not_mem (reg : List (Val × Option Action)) (s : Val) :
    lookupSig reg s = none → s ∉ reg.map Prod.fst := by
  induction reg with
  | nil => intro _ h; cases h
  | cons kv reg ih =>
      obtain ⟨k0, v0⟩ := kv
      intro h hm
      simp only [lookupSig] at h
      by_cases hk : k0 = s
      · rw [if_pos hk] at h; cases h
      · rw [if_neg hk] at h
        cases List.mem_cons.mp hm with
        | inl hh => exact hk hh.symm
        | inr hh => exact ih h hh

theorem setSig_keys (reg : List (Val × Option Action)) (s : Val)
    (v : Option Action) : (setSig reg s v).map Prod.fst = reg.map Prod.fst := by
  induction reg with
  | nil => rfl
  | cons kv reg ih =>
      obtain ⟨k0, v0⟩ := kv
      simp only [setSig]
      by_cases hk : k0 = s
      · rw [if_pos hk]; simp
      · rw [if_neg hk]; simp [ih]

theorem mem_setSig (reg : List (Val × Option Action)) (s : Val)
    (v : Option Action) (kv : Val × Option Action) :
    kv ∈ setSig reg s v → kv ∈ reg ∨ kv = (s, v) := by
  induction reg with
  | nil => intro h; cases h
  | cons kv0 reg ih =>
      obtain ⟨k0, v0⟩ := kv0
      intro h
      simp only [setSig] at h
      by_cases hk : k0 = s
      · rw [if_pos hk] at h
        cases List.mem_cons.mp h with
        | inl hh => exact Or.inr (by rw [hh, hk])
        | inr hh => exact Or.inl (List.mem_cons_of_mem _ hh)
      · rw [if_neg hk] at h
        cases List.mem_cons.mp h with
        | inl hh => exact Or.inl (hh ▸ List.mem_cons_self _ _)
        | inr hh =>
            cases ih hh with
            | inl h2 => exact Or.inl (List.mem_cons_of_mem _ h2)
            | inr h2 => exact Or.inr h2

theorem lookupSig_setSig_self (reg : List (Val × Option Action)) (s : Val)
    (v old : Option Action) (h : lookupSig reg s = some old) :
    lookupSig (setSig reg s v) s = some v := by
  induction reg with
  | nil => cases h
  | cons kv reg ih =>
      obtain ⟨k0, v0⟩ := kv
      by_cases hk : k0 = s
      · simp [setSig, lookupSig, hk]
      · simp only [lookupSig, if_neg hk] at h
        simp [setSig, lookupSig, hk, ih h]

theorem lookupSig_setSig_ne (reg : List (Val × Option Action)) (s k : Val)
    (v : Option Action) (h : k ≠ s) :
    lookupSig (setSig reg s v) k = lookupSig reg k := by
  induction reg with
  | nil => rfl
  | cons kv reg ih =>
      obtain ⟨k0, v0⟩ := kv
      by_cases hk : k0 = s
      · have hsk : ¬s = k := fun hh => h hh.symm
        simp [setSig, lookupSig, hk, hsk]
      · by_cases hk2 : k0 = k
        · simp [setSig, lookupSig, hk, hk2, h]
        · simp [setSig, lookupSig, hk, hk2, ih]

theorem lookupSig_append_right (reg : List (Val × Option Action)) (s : Val)
    (v : Option Action) (h : lookupSig reg s = none) :
    lookupSig (reg ++ [(s, v)]) s = some v := by
  induction reg with
  | nil => simp [lookupSig]
  | cons kv reg ih =>
      obtain ⟨k0, v0⟩ := kv
      simp only [lookupSig] at h
      by_cases hk : k0 = s
      · rw [if_pos hk] at h; cases h
      · rw [if_neg hk] at h
        simp only [List.cons_append, lookupSig, if_neg hk]
        exact ih h

/-- A combine whose first argument is a real action never yields `None`
(every branch of `combine_actions` returns an action). -/
theorem combine_some_left_ne_none (f : Nat) (a : Action) (o c : Option Action)
    (h : combGo f (some a) o = .ok c) : c ≠ none := by
  cases f with
  | zero => cases h
  | succ f =>
      cases o with
      | none => cases h; simp
      | some a2 =>
          simp only [combGo] at h
          cases h12 : impliesA a a2 with
          | error e => rw [h12] at h; cases h
          | ok i12 =>
              rw [h12] at h; simp only [okBind] at h
              cases h21 : impliesA a2 a with
              | error e => rw [h21] at h; cases h
              | ok i21 =>
                  rw [h21] at h; simp only [okBind] at h
                  cases i12 <;> cases i21 <;> simp at h <;>
                    [ (cases hx : mrgGo f a a2);
                      (cases hx : ovrGo f a2 a);
                      (cases hx : ovrGo f a a2);
                      (cases hx : mrgGo f a a2) ] <;>
                    rw [hx] at h <;> simp at h <;> simp [← h]

theorem add_method_inv (reg : List (Val × Option Action)) (sig : Val)
    (a : Action) (reg' : List (Val × Option Action))
    (h : add_method reg sig a = .ok reg')
    (hnd : (reg.map Prod.fst).Nodup) (hv : ∀ kv ∈ reg, kv.2 ≠ none) :
    (reg'.map Prod.fst).Nodup ∧ ∀ kv ∈ reg', kv.2 ≠ none := by
  unfold add_method at h
  cases hl : lookupSig reg sig with
  | none =>
      rw [hl] at h
      cases h
      constructor
      · simp only [List.map_append, List.map_cons, List.map_nil]
        rw [List.nodup_append]
        exact ⟨hnd, List.nodup_singleton _,
          by
            intro x hx hy
            simp only [List.mem_singleton] at hy
            exact lookupSig_none_not_mem reg sig hl (hy ▸ hx)⟩
      · intro kv hkv
        cases List.mem_append.mp hkv with
        | inl hh => exact hv kv hh
        | inr hh => simp only [List.mem_singleton] at hh; simp [hh]
  | some old =>
      rw [hl] at h
      simp only [bind, Except.bind] at h
      cases hc : combine_actions (some a) old with
      | error e => rw [hc] at h; cases h
      | ok c =>
          rw [hc] at h
          cases h
          refine ⟨by rw [setSig_keys]; exact hnd, ?_⟩
          intro kv hkv
          cases mem_setSig reg sig c kv hkv with
          | inl hh => exact hv kv hh
          | inr hh =>
              rw [hh]
              exact combine_some_left_ne_none _ a old c hc

theorem addAll_inv : ∀ (reqs : List (Val × Action))
    (reg0 reg : List (Val × Option Action)),
    (reg0.map Prod.fst).Nodup → (∀ kv ∈ reg0, kv.2 ≠ none) →
    List.foldlM (fun reg p => add_method reg p.1 p.2) reg0 reqs = .ok reg →
    (reg.map Prod.fst).Nodup ∧ ∀ kv ∈ reg, kv.2 ≠ none := by
  intro reqs
  induction reqs with
  | nil =>
      intro reg0 reg hnd hv h
      cases h
      exact ⟨hnd, hv⟩
  | cons p reqs ih =>
      intro reg0 reg hnd hv h
      rw [List.foldlM_cons] at h
      cases h1 : add_method reg0 p.1 p.2 with
      | error e => rw [h1] at h; cases h
      | ok r1 =>
          rw [h1] at h
          simp only [okBind] at h
          obtain ⟨hnd1, hv1⟩ := add_method_inv reg0 p.1 p.2 r1 h1 hnd hv
          exact ih r1 reg hnd1 hv1 h

/-- C8: after any sequence of `add_method` calls the registry has one
entry per registered signature and never stores `None`; adding at an
occupied signature stores `combine_actions(new, old)` (new first) and
leaves other signatures unchanged; adding at a fresh signature inserts
the action as is. -/
theorem C8_add_method_registry :
    (∀ (reqs : List (Val × Action)) (reg : List (Val × Option Action)),
      addAll reqs = .ok reg →
      (reg.map Prod.fst).Nodup ∧ ∀ kv ∈ reg, kv.2 ≠ none)
  ∧ (∀ (reg : List (Val × Option Action)) (sig : Val) (a : Action)
        (reg' : List (Val × Option Action)) (old : Option Action),
      lookupSig reg sig = some old → add_method reg sig a = .ok reg' →
      ∃ c, combine_actions (some a) old = .ok c ∧ lookupSig reg' sig = some c ∧
        ∀ k, k ≠ sig → lookupSig reg' k = lookupSig reg k)
  ∧ (∀ (reg : List (Val × Option Action)) (sig : Val) (a : Action),
      lookupSig reg sig = none →
      add_method reg sig a = .ok (reg ++ [(sig, some a)])) := by
  refine ⟨fun reqs reg h => addAll_inv reqs [] reg (by simp) (by simp) h,
    ?_, ?_⟩
  · intro reg sig a reg' old hl h
    unfold add_method at h
    rw [hl] at h
    simp only [bind, Except.bind] at h
    cases hc : combine_actions (some a) old with
    | error e => rw [hc] at h; cases h
    | ok c =>
        rw [hc] at h
        cases h
        exact ⟨c, rfl, lookupSig_setSig_self reg sig c old hl,
          fun k hk => lookupSig_setSig_ne reg sig k c hk⟩
  · intro reg sig a hl
    unfold add_method
    rw [hl]

theorem C8_add_method_registry_witness :
    ((([(sigI, some (Action.method 0 5 sigI 0 none false))] :
        List (Val × Option Action)).map Prod.fst).Nodup
      ∧ ∀ kv ∈ ([(sigI, some (Action.method 0 5 sigI 0 none false))] :
          List (Val × Option Action)), kv.2 ≠ none)
  ∧ add_method [] sigI (.method 0 5 sigI 0 none false)
      = .ok [(sigI, some (.method 0 5 sigI 0 none false))] :=
  ⟨C8_add_method_registry.1 [(sigI, .method 0 5 sigI 0 none false)] _ (by rfl),
   C8_add_method_registry.2.2 [] sigI (.method 0 5 sigI 0 none false) (by rfl)⟩

/-! ## Claim C10: removing an unknown rule -/

/-- C10: `RuleSet.remove(rule)` on a rule that is not in the ruleset
raises `KeyError` - `self.actiondefs.pop(rule)` fails before any state is
touched - so no mutated state and no `actions_changed` notification can
be produced (the functional embedding returns an error and no
state/notification pair). -/
theorem C10_remove_missing_rule (rs : RuleSetS) (r : RuleR)
    (h : lookupRule rs.actiondefs r = none) :
    rs.removeRule r = .error .keyError ∧
      ∀ out : RuleSetS × List Notif, rs.removeRule r ≠ .ok out := by
  have he : rs.removeRule r = .error .keyError := by
    unfold RuleSetS.removeRule
    rw [h]
  exact ⟨he, fun out hout => by rw [he] at hout; cases hout⟩

theorem C10_remove_missing_rule_witness :
    RuleSetS.removeRule ⟨[], [], 0⟩ ⟨0, ctup [], none⟩ = .error .keyError ∧
      ∀ out : RuleSetS × List Notif,
        RuleSetS.removeRule ⟨[], [], 0⟩ ⟨0, ctup [], none⟩ ≠ .ok out :=
  C10_remove_missing_rule ⟨[], [], 0⟩ ⟨0, ctup [], none⟩ rfl

/-! ## Claim C3: the Before+After invocation scenario -/

/-- C3 (code bug): in the Before+After scenario the bodies are invoked in
the claimed order B1, B2, P, A, but the call returns `None`, not "P":
`After.__call__` assigns `retval = self.tail(*args, **kw)` and then falls
off the end of the function without `return retval`, so the tail's return
value is discarded.  The dead assignment and the spec's scenario 5 show
the intended behaviour; the missing `return` is a slip in the code. -/
theorem C3_before_after_trace_and_return :
    dispatchCall c3Reqs (ctup [.intc]) c3Ret = .ok ([1, 2, 0, 3], .ok none)
  ∧ dispatchCall c3Reqs (ctup [.intc]) c3Ret
      ≠ .ok ([1, 2, 0, 3], .ok (some "P")) := ⟨rfl, by decide⟩

/-! ## Claim C4: duplicate registration -/

/-- C4 counterexample: registering the same Primary rule twice is *not*
observationally equivalent to registering it once.  The duplicate
`Method` actions mutually imply each other (same class, same signature),
so `combine` merges them into an `AmbiguousMethods`; the call then raises
`AmbiguousMethods` where the single registration returns the body's
value. -/
theorem C4_counterexample_duplicate_primary :
    dispatchCall [(sigI, .method 0 5 sigI 0 none false)] sigI c4Ret
      = .ok ([5], .ok (some "X"))
  ∧ dispatchCall [(sigI, .method 0 5 sigI 0 none false),
      (sigI, .method 0 5 sigI 1 none false)] sigI c4Ret
      = .ok ([], .error .ambiguousE)
  ∧ dispatchCall [(sigI, .method 0 5 sigI 0 none false),
        (sigI, .method 0 5 sigI 1 none false)] sigI c4Ret
      ≠ dispatchCall [(sigI, .method 0 5 sigI 0 none false)] sigI c4Ret :=
  ⟨rfl, rfl, by decide⟩

/-- C4 (amended): adding the same rule twice is observationally idempotent
for Before/After list rules (their items concatenate and `sorted()`
de-duplicates bodies - shown on representative Before and After
scenarios), but for a Primary rule the second addition turns the registry
slot into an `AmbiguousMethods`, so dispatch raises instead of invoking
the body. -/
theorem C4_duplicate_registration :
    dispatchCall [(sigI, .method 0 9 sigI 0 none false),
        (sigI, .before [(sigI, 1, 7)] none)] sigI c4Ret
      = .ok ([7, 9], .ok (some "X"))
  ∧ dispatchCall [(sigI, .method 0 9 sigI 0 none false),
        (sigI, .before [(sigI, 1, 7)] none),
        (sigI, .before [(sigI, 2, 7)] none)] sigI c4Ret
      = .ok ([7, 9], .ok (some "X"))
  ∧ dispatchCall [(sigI, .method 0 9 sigI 0 none false),
        (sigI, .after [(sigI, 1, 7)] none)] sigI c4Ret
      = .ok ([9, 7], .ok none)
  ∧ dispatchCall [(sigI, .method 0 9 sigI 0 none false),
        (sigI, .after [(sigI, 1, 7)] none),
        (sigI, .after [(sigI, 2, 7)] none)] sigI c4Ret
      = .ok ([9, 7], .ok none)
  ∧ dispatchCall [(sigI, .method 0 5 sigI 0 none false),
        (sigI, .method 0 5 sigI 1 none false)] sigI c4Ret
      = .ok ([], .error .ambiguousE) := ⟨rfl, rfl, rfl, rfl, rfl⟩

/-! ## Claim C2: the dominance resolver -/

theorem dsScan_sublist (np : Val × Nat) :
    ∀ (snap best b' : List (Val × Nat)) (add : Bool),
    dsScan np snap best = (b', add) → b'.Sublist best := by
  intro snap
  induction snap with
  | nil =>
      intro best b' add h
      cases h
      exact List.Sublist.refl _
  | cons op snap ih =>
      intro best b' add h
      cases hnio : implies np.1 op.1 <;> cases hoin : implies op.1 np.1 <;>
        simp only [dsScan, hnio, hoin] at h
      · exact ih best b' add (by simpa using h)
      · simp at h
        obtain ⟨h1, _⟩ := h
        exact h1 ▸ List.Sublist.refl _
      · exact ((ih _ b' add (by simpa using h)).trans
          (List.erase_sublist op best))
      · exact ih best b' add (by simpa using h)

theorem dsScan_count (np : Val × Nat) :
    ∀ (snap best b' : List (Val × Nat)),
    dsScan np snap best = (b', true) →
    ∀ v : Val × Nat, implies np.1 v.1 = true → implies v.1 np.1 = false →
    List.count v snap ≤ List.count v best →
    List.count v b' + List.count v snap ≤ List.count v best := by
  intro snap
  induction snap with
  | nil =>
      intro best b' h v h1 h2 hc
      cases h
      simp
  | cons op snap ih =>
      intro best b' h v h1 h2 hc
      cases hnio : implies np.1 op.1 <;> cases hoin : implies op.1 np.1 <;>
        simp only [dsScan, hnio, hoin] at h
      · -- neither direction: best unchanged
        by_cases hv : v = op
        · rw [← hv] at hnio; rw [h1] at hnio; cases hnio
        · rw [List.count_cons_of_ne hv] at hc ⊢
          exact ih best b' (by simpa using h) v h1 h2 hc
      · -- break: impossible for add = true
        simp at h
      · -- strictly dominated old: erased
        by_cases hv : v = op
        · subst hv
          rw [List.count_cons_self] at hc ⊢
          have hpos : 1 ≤ List.count v best := by omega
          have hc' : List.count v snap ≤ List.count v (best.erase v) := by
            rw [List.count_erase_self]; omega
          have := ih (best.erase v) b' (by simpa using h) v h1 h2 hc'
          rw [List.count_erase_self] at this
          omega
        · rw [List.count_cons_of_ne hv] at hc ⊢
          have hc' : List.count v snap ≤ List.count v (best.erase op) := by
            rw [List.count_erase_of_ne hv]; exact hc
          have := ih (best.erase op) b' (by simpa using h) v h1 h2 hc'
          rw [List.count_erase_of_ne hv] at this
          exact this
      · -- mutual implication: best unchanged
        by_cases hv : v = op
        · rw [← hv] at hoin; rw [h2] at hoin; cases hoin
        · rw [List.count_cons_of_ne hv] at hc ⊢
          exact ih best b' (by simpa using h) v h1 h2 hc

theorem dsScan_nobreak (np : Val × Nat) :
    ∀ (snap best b' : List (Val × Nat)),
    dsScan np snap best = (b', true) →
    ∀ op ∈ snap, ¬(implies op.1 np.1 = true ∧ implies np.1 op.1 = false) := by
  intro snap
  induction snap with
  | nil => intro best b' _ op hop; cases hop
  | cons op0 snap ih =>
      intro best b' h op hop
      cases hnio : implies np.1 op0.1 <;> cases hoin : implies op0.1 np.1 <;>
        simp only [dsScan, hnio, hoin] at h
      · cases List.mem_cons.mp hop with
        | inl hh =>
            intro hc
            rw [hh] at hc
            rw [hc.1] at hoin
            cases hoin
        | inr hh => exact ih best b' (by simpa using h) op hh
      · simp at h
      · cases List.mem_cons.mp hop with
        | inl hh =>
            intro hc
            rw [hh] at hc
            rw [hc.2] at hnio
            cases hnio
        | inr hh => exact ih _ b' (by simpa using h) op hh
      · cases List.mem_cons.mp hop with
        | inl hh =>
            intro hc
            rw [hh] at hc
            rw [hc.2] at hnio
            cases hnio
        | inr hh => exact ih best b' (by simpa using h) op hh

theorem dsScan_break_ne (np : Val × Nat) :
    ∀ (snap best b' : List (Val × Nat)),
    dsScan np snap best = (b', false) →
    (∀ v : Val × Nat, List.count v snap ≤ List.count v best) → b' ≠ [] := by
  intro snap
  induction snap with
  | nil => intro best b' h _; simp [dsScan] at h
  | cons op snap ih =>
      intro best b' h hc
      cases hnio : implies np.1 op.1 <;> cases hoin : implies op.1 np.1 <;>
        simp only [dsScan, hnio, hoin] at h
      · refine ih best b' (by simpa using h) fun v => ?_
        exact le_trans (by
          by_cases hv : v = op
          · rw [hv, List.count_cons_self]; omega
          · rw [List.count_cons_of_ne hv]) (hc v)
      · -- break: the breaker still occurs in best
        simp at h
        have hop : 0 < List.count op best := by
          have := hc op
          rw [List.count_cons_self] at this
          omega
        rw [← h]
        exact List.ne_nil_of_mem (List.count_pos_iff.mp hop)
      · refine ih (best.erase op) b' (by simpa using h) fun v => ?_
        by_cases hv : v = op
        · subst hv
          rw [List.count_erase_self]
          have := hc v
          rw [List.count_cons_self] at this
          omega
        · rw [List.count_erase_of_ne hv]
          exact le_trans (by rw [List.count_cons_of_ne hv]) (hc v)
      · refine ih best b' (by simpa using h) fun v => ?_
        exact le_trans (by
          by_cases hv : v = op
          · rw [hv, List.count_cons_self]; omega
          · rw [List.count_cons_of_ne hv]) (hc v)

/-- Every value whose multiplicity drops during a scan was erased by the
strict-domination branch, so the incoming pair strictly dominates it. -/
theorem dsScan_removed (np : Val × Nat) :
    ∀ (snap best b' : List (Val × Nat)) (add : Bool),
    dsScan np snap best = (b', add) →
    ∀ v : Val × Nat, List.count v b' < List.count v best →
    implies np.1 v.1 = true ∧ implies v.1 np.1 = false := by
  intro snap
  induction snap with
  | nil =>
      intro best b' add h v hc
      cases h
      omega
  | cons op snap ih =>
      intro best b' add h v hc
      cases hnio : implies np.1 op.1 <;> cases hoin : implies op.1 np.1 <;>
        simp only [dsScan, hnio, hoin] at h
      · exact ih best b' add (by simpa using h) v hc
      · simp at h
        obtain ⟨h1, _⟩ := h
        subst h1
        omega
      · by_cases hv : v = op
        · exact ⟨hv ▸ hnio, hv ▸ hoin⟩
        · refine ih (best.erase op) b' add (by simpa using h) v ?_
          rw [List.count_erase_of_ne hv]
          exact hc
      · exact ih best b' add (by simpa using h) v hc

/-- When a scan breaks, the breaker — which strictly dominates the
incoming pair — survives in the resulting `best`. -/
theorem dsScan_break_dom (np : Val × Nat) :
    ∀ (snap best b' : List (Val × Nat)),
    dsScan np snap best = (b', false) →
    (∀ v : Val × Nat, List.count v snap ≤ List.count v best) →
    ∃ ob ∈ b', implies ob.1 np.1 = true ∧ implies np.1 ob.1 = false := by
  intro snap
  induction snap with
  | nil => intro best b' h _; simp [dsScan] at h
  | cons op snap ih =>
      intro best b' h hc
      cases hnio : implies np.1 op.1 <;> cases hoin : implies op.1 np.1 <;>
        simp only [dsScan, hnio, hoin] at h
      · refine ih best b' (by simpa using h) fun v => ?_
        exact le_trans (by
          by_cases hv : v = op
          · rw [hv, List.count_cons_self]; omega
          · rw [List.count_cons_of_ne hv]) (hc v)
      · simp at h
        have hop : 0 < List.count op best := by
          have := hc op
          rw [List.count_cons_self] at this
          omega
        rw [← h]
        exact ⟨op, List.count_pos_iff.mp hop, hoin, hnio⟩
      · refine ih (best.erase op) b' (by simpa using h) fun v => ?_
        by_cases hv : v = op
        · subst hv
          rw [List.count_erase_self]
          have := hc v
          rw [List.count_cons_self] at this
          omega
        · rw [List.count_erase_of_ne hv]
          exact le_trans (by rw [List.count_cons_of_ne hv]) (hc v)
      · refine ih best b' (by simpa using h) fun v => ?_
        exact le_trans (by
          by_cases hv : v = op
          · rw [hv, List.count_cons_self]; omega
          · rw [List.count_cons_of_ne hv]) (hc v)

/-- Completeness of the resolver loop: every processed pair missing from
the final output is strictly dominated by some output pair. -/
theorem dsLoop_complete : ∀ (rest best P : List (Val × Nat)),
    (∀ c ∈ P, c ∉ best → ∃ d ∈ best, StrictDom d c) →
    ∀ c, c ∈ P ∨ c ∈ rest → c ∉ dsLoop rest best →
      ∃ d ∈ dsLoop rest best, StrictDom d c := by
  intro rest
  induction rest with
  | nil =>
      intro best P hinv c hc hnot
      simp only [dsLoop] at hnot ⊢
      cases hc with
      | inl h => exact hinv c h hnot
      | inr h => cases h
  | cons np rest ih =>
      intro best P hinv c hc hnot
      simp only [dsLoop] at hnot ⊢
      cases hscan : dsScan np best best with
      | mk b' add =>
          rw [hscan] at hnot
          have hstep : ∀ x, (x ∈ P ∨ x = np) →
              x ∉ (if (b', add).2 then (b', add).1 ++ [np] else (b', add).1) →
              ∃ d ∈ (if (b', add).2 then (b', add).1 ++ [np] else (b', add).1),
                StrictDom d x := by
            intro x hx hxn
            cases add with
            | true =>
                simp only [if_pos] at hxn ⊢
                cases hx with
                | inr hxp =>
                    exact absurd (List.mem_append.mpr (Or.inr
                      (by rw [hxp]; exact List.mem_singleton_self np))) hxn
                | inl hxp =>
                    have hxb' : x ∉ b' := fun hh =>
                      hxn (List.mem_append.mpr (Or.inl hh))
                    by_cases hxb : x ∈ best
                    · have hcount : List.count x b' < List.count x best := by
                        have h1 : List.count x b' = 0 :=
                          List.count_eq_zero.mpr hxb'
                        have h2 : 0 < List.count x best :=
                          List.count_pos_iff.mpr hxb
                        omega
                      have hsd := dsScan_removed np best best b' true hscan
                        x hcount
                      exact ⟨np, List.mem_append.mpr (Or.inr
                        (List.mem_singleton_self np)), hsd.1, hsd.2⟩
                    · obtain ⟨d, hd, hsdc⟩ := hinv x hxp hxb
                      by_cases hdb : d ∈ b'
                      · exact ⟨d, List.mem_append.mpr (Or.inl hdb), hsdc⟩
                      · have hcount : List.count d b' < List.count d best := by
                          have h1 : List.count d b' = 0 :=
                            List.count_eq_zero.mpr hdb
                          have h2 : 0 < List.count d best :=
                            List.count_pos_iff.mpr hd
                          omega
                        have hsd := dsScan_removed np best best b' true hscan
                          d hcount
                        exact ⟨np, List.mem_append.mpr (Or.inr
                          (List.mem_singleton_self np)),
                          StrictDom_trans np d x ⟨hsd.1, hsd.2⟩ hsdc⟩
            | false =>
                simp only [Bool.false_eq_true, if_false] at hxn ⊢
                obtain ⟨ob, hob, h1, h2⟩ := dsScan_break_dom np best best b'
                  hscan fun v => le_refl _
                cases hx with
                | inr hxp => exact ⟨ob, hob, by rw [hxp]; exact h1,
                    by rw [hxp]; exact h2⟩
                | inl hxp =>
                    by_cases hxb : x ∈ best
                    · have hcount : List.count x b' < List.count x best := by
                        have hh1 : List.count x b' = 0 :=
                          List.count_eq_zero.mpr hxn
                        have hh2 : 0 < List.count x best :=
                          List.count_pos_iff.mpr hxb
                        omega
                      have hsd := dsScan_removed np best best b' false hscan
                        x hcount
                      exact ⟨ob, hob, StrictDom_trans ob np x ⟨h1, h2⟩
                        ⟨hsd.1, hsd.2⟩⟩
                    · obtain ⟨d, hd, hsdc⟩ := hinv x hxp hxb
                      by_cases hdb : d ∈ b'
                      · exact ⟨d, hdb, hsdc⟩
                      · have hcount : List.count d b' < List.count d best := by
                          have hh1 : List.count d b' = 0 :=
                            List.count_eq_zero.mpr hdb
                          have hh2 : 0 < List.count d best :=
                            List.count_pos_iff.mpr hd
                          omega
                        have hsd := dsScan_removed np best best b' false hscan
                          d hcount
                        exact ⟨ob, hob, StrictDom_trans ob np x ⟨h1, h2⟩
                          (StrictDom_trans np d x ⟨hsd.1, hsd.2⟩ hsdc)⟩
          refine ih _ (P ++ [np]) (fun x hx hxb => hstep x ?_ hxb) c ?_ hnot
          · cases List.mem_append.mp hx with
            | inl hh => exact Or.inl hh
            | inr hh => exact Or.inr (List.mem_singleton.mp hh)
          · cases hc with
            | inl hh => exact Or.inl (List.mem_append.mpr (Or.inl hh))
            | inr hh =>
                cases List.mem_cons.mp hh with
                | inl h2 => exact Or.inl (List.mem_append.mpr (Or.inr
                    (by rw [h2]; exact List.mem_singleton_self np)))
                | inr h2 => exact Or.inr h2

theorem dsLoop_pairwise : ∀ (rest best : List (Val × Nat)),
    List.Pairwise NonStrict best → List.Pairwise NonStrict (dsLoop rest best) := by
  intro rest
  induction rest with
  | nil => exact fun best h => h
  | cons np rest ih =>
      intro best hbest
      simp only [dsLoop]
      cases hscan : dsScan np best best with
      | mk b' add =>
          have hsub : b'.Sublist best := dsScan_sublist np best best b' add hscan
          cases add with
          | false => exact ih b' (hbest.sublist hsub)
          | true =>
              refine ih (b' ++ [np]) ?_
              rw [List.pairwise_append]
              refine ⟨hbest.sublist hsub, List.pairwise_singleton _ _, ?_⟩
              intro x hx y hy
              rw [List.mem_singleton.mp hy]
              constructor
              · intro hsd
                exact dsScan_nobreak np best best b' hscan x (hsub.subset hx)
                  ⟨hsd.1, hsd.2⟩
              · intro hsd
                have h0 := dsScan_count np best best b' hscan x hsd.1 hsd.2
                  (le_refl _)
                have hxc : 0 < List.count x b' := List.count_pos_iff.mpr hx
                have hxb : 0 < List.count x best :=
                  List.count_pos_iff.mpr (hsub.subset hx)
                omega

theorem dsLoop_sublist : ∀ (rest best pre : List (Val × Nat)),
    best.Sublist pre → (dsLoop rest best).Sublist (pre ++ rest) := by
  intro rest
  induction rest with
  | nil => intro best pre h; simpa using h
  | cons np rest ih =>
      intro best pre h
      simp only [dsLoop]
      cases hscan : dsScan np best best with
      | mk b' add =>
          have hsub : b'.Sublist best := dsScan_sublist np best best b' add hscan
          cases add with
          | false =>
              have h1 : b'.Sublist (pre ++ [np]) :=
                ((hsub.trans h).trans (List.sublist_append_left pre [np]))
              simpa [List.append_assoc] using ih b' (pre ++ [np]) h1
          | true =>
              have h1 : (b' ++ [np]).Sublist (pre ++ [np]) :=
                List.Sublist.append (hsub.trans h) (List.Sublist.refl [np])
              simpa [List.append_assoc] using ih (b' ++ [np]) (pre ++ [np]) h1

theorem dsLoop_ne : ∀ (rest best : List (Val × Nat)),
    best ≠ [] → dsLoop rest best ≠ [] := by
  intro rest
  induction rest with
  | nil => exact fun best h => h
  | cons np rest ih =>
      intro best hbest
      simp only [dsLoop]
      cases hscan : dsScan np best best with
      | mk b' add =>
          cases add with
          | false =>
              exact ih b' (dsScan_break_ne np best best b' hscan fun v => le_refl _)
          | true => exact ih (b' ++ [np]) (by simp)

theorem dominant_two_mutual (s1 s2 : Val) (b1 b2 : Nat)
    (h12 : implies s1 s2 = true) (h21 : implies s2 s1 = true) :
    dominant_signatures [(s1, b1), (s2, b2)] = [(s1, b1), (s2, b2)] := by
  simp [dominant_signatures, dsLoop, dsScan, h12, h21]

theorem dominant_two_incomparable (s1 s2 : Val) (b1 b2 : Nat)
    (h12 : implies s1 s2 = false) (h21 : implies s2 s1 = false) :
    dominant_signatures [(s1, b1), (s2, b2)] = [(s1, b1), (s2, b2)] := by
  simp [dominant_signatures, dsLoop, dsScan, h12, h21]

/-- C2 counterexample: two pairs with mutually implying (here: equal)
signatures are BOTH kept by `dominant_signatures` - the inner loop
neither removes the old one nor breaks, and the for-else appends the new
one - so the output is not an antichain under `implies` and the claimed
"keep only the earlier one" tiebreak does not happen. -/
theorem C2_counterexample_mutual_kept :
    dominant_signatures [(.vtup [], 0), (.vtup [], 1)]
      = [(.vtup [], 0), (.vtup [], 1)]
  ∧ dominant_signatures [(.vtup [], 0), (.vtup [], 1)] ≠ [(.vtup [], 0)]
  ∧ implies (.vtup []) (.vtup []) = true := ⟨rfl, by decide, rfl⟩

/-- C2 (amended): `dominant_signatures` returns a subsequence of its
input (relative order preserved) that is an antichain under *strict*
implication (no output strictly dominates another); a non-empty input
gives a non-empty output; the output is maximally specific: every input
pair missing from the output is strictly dominated by some output pair
(using that `implies` on signatures is transitive, `implies_trans`); a
single-element input is returned unchanged; two mutually implying pairs
are BOTH kept (not just the earlier one); two incomparable pairs both
survive. -/
theorem C2_dominant_signatures :
    (∀ c : Val × Nat, dominant_signatures [c] = [c])
  ∧ (∀ cases : List (Val × Nat), (dominant_signatures cases).Sublist cases)
  ∧ (∀ cases : List (Val × Nat), cases ≠ [] → dominant_signatures cases ≠ [])
  ∧ (∀ cases : List (Val × Nat),
      List.Pairwise NonStrict (dominant_signatures cases))
  ∧ (∀ cases : List (Val × Nat), ∀ c ∈ cases, c ∉ dominant_signatures cases →
      ∃ d ∈ dominant_signatures cases, StrictDom d c)
  ∧ (∀ (s1 s2 : Val) (b1 b2 : Nat), implies s1 s2 = true →
      implies s2 s1 = true →
      dominant_signatures [(s1, b1), (s2, b2)] = [(s1, b1), (s2, b2)])
  ∧ (∀ (s1 s2 : Val) (b1 b2 : Nat), implies s1 s2 = false →
      implies s2 s1 = false →
      dominant_signatures [(s1, b1), (s2, b2)] = [(s1, b1), (s2, b2)]) := by
  refine ⟨fun c => rfl, ?_, ?_, ?_, ?_, dominant_two_mutual,
    dominant_two_incomparable⟩
  · intro cases
    unfold dominant_signatures
    split
    · exact List.Sublist.refl _
    · have := dsLoop_sublist (cases.drop 1) (cases.take 1) (cases.take 1)
        (List.Sublist.refl _)
      rwa [List.take_append_drop] at this
  · intro cases hne
    unfold dominant_signatures
    split
    · exact hne
    · cases cases with
      | nil => exact absurd rfl hne
      | cons c cs =>
          exact dsLoop_ne cs [c] (by simp)
  · intro cases
    unfold dominant_signatures
    split
    · next h =>
        cases cases with
        | nil => exact List.Pairwise.nil
        | cons c cs =>
            cases cs with
            | nil => exact List.pairwise_singleton _ _
            | cons d ds => simp at h
    · cases cases with
      | nil => exact List.Pairwise.nil
      | cons c cs => exact dsLoop_pairwise cs [c] (List.pairwise_singleton _ _)
  · intro cases c hc hnot
    unfold dominant_signatures at hnot ⊢
    split at hnot
    · rename_i hlen
      rw [if_pos hlen]
      exact absurd hc hnot
    · rename_i hlen
      rw [if_neg hlen]
      refine dsLoop_complete (cases.drop 1) (cases.take 1) (cases.take 1)
        (fun x hx hxn => absurd hx hxn) c ?_ hnot
      exact List.mem_append.mp
        (by rw [List.take_append_drop 1 cases]; exact hc :
          c ∈ cases.take 1 ++ cases.drop 1)

theorem C2_dominant_signatures_witness :
    dominant_signatures [(ctup [.intc], 5), (ctup [], 6)] ≠ []
  ∧ (∃ d ∈ dominant_signatures [(ctup [.intc], 5), (ctup [], 6)],
      StrictDom d (ctup [], 6))
  ∧ dominant_signatures [(ctup [.boolc], 1), (ctup [.strc], 2)]
      = [(ctup [.boolc], 1), (ctup [.strc], 2)] :=
  ⟨C2_dominant_signatures.2.2.1 [(ctup [.intc], 5), (ctup [], 6)] (by simp),
   C2_dominant_signatures.2.2.2.2.1 [(ctup [.intc], 5), (ctup [], 6)]
     (ctup [], 6) (by simp) (by decide),
   C2_dominant_signatures.2.2.2.2.2.2 (ctup [.boolc]) (ctup [.strc]) 1 2
     (by rfl) (by rfl)⟩

end PeakRules
